import Mathlib

/-!
Verification development for the dnscat2 protocol core: a shallow embedding of
the packet codec (`src/packet.rs`) and the client handshake
(`src/conn/handshake.rs`), together with proofs of the specified codec and
handshake properties.

Bytes are modelled as `List Nat` with values below 256.  Fallible decoders
return `Except PacketDecodeError (value × remaining)`, mirroring the Rust
decoders that consume a `Bytes` cursor and return a value or an error.

The byte-parsing and hex primitives live in `src/util/parse.rs` and
`src/util/hex.rs`, which are not among the provided sources; those definitions
are modelled from the specification (and checked against the wire-format test
vectors contained in `src/packet.rs`), and are marked as such below.
-/

namespace Dnscat

/-- Byte strings on the wire: lists of naturals, meant to be below 256. -/
abbrev Bytes := List Nat

/-- Every entry of the list is a byte value. -/
def Byteish (bs : Bytes) : Prop := ∀ b ∈ bs, b < 256

/-- Big-endian bytes of a 16-bit value, as written by `put_u16`. -/
def u16Bytes (v : Nat) : Bytes := [v / 256, v % 256]

/-- Decode-error taxonomy of `PacketDecodeError` in `src/packet.rs`. -/
inductive PacketDecodeError where
  | noNullTerm
  | hexErr
  | utf8Err
  | unknownKind (k : Nat)
  | unknownEncKind (k : Nat)
  | incomplete (needed : Nat)
deriving DecidableEq

instance {ε α : Type} [DecidableEq ε] [DecidableEq α] : DecidableEq (Except ε α) :=
  fun a b =>
    match a, b with
    | .error x, .error y =>
      if h : x = y then isTrue (by rw [h])
      else isFalse (by intro hc; cases hc; exact h rfl)
    | .error _, .ok _ => isFalse (by intro hc; cases hc)
    | .ok _, .error _ => isFalse (by intro hc; cases hc)
    | .ok x, .ok y =>
      if h : x = y then isTrue (by rw [h])
      else isFalse (by intro hc; cases hc; exact h rfl)

/-- Result of a decoder: the decoded value and the remaining bytes. -/
abbrev PResult (α : Type) := Except PacketDecodeError (α × Bytes)

/-- Modelled from the spec: `parse::be_u8` (src/util/parse.rs is not among the
sources).  Reads one byte, failing with `Incomplete` on an empty buffer. -/
def be_u8 : Bytes → PResult Nat
  | [] => .error (.incomplete 1)
  | b :: rest => .ok (b, rest)

/-- Modelled from the spec: `parse::be_u16` (src/util/parse.rs is not among
the sources).  Reads a big-endian 16-bit value, failing with `Incomplete` if
fewer than two bytes remain. -/
def be_u16 : Bytes → PResult Nat
  | b0 :: b1 :: rest => .ok (b0 * 256 + b1, rest)
  | bs => .error (.incomplete (2 - bs.length))

/-- Whether a byte is a UTF-8 continuation byte (`10xxxxxx`). -/
def utf8Cont (c : Nat) : Bool := 128 ≤ c && c ≤ 191

/-- UTF-8 validity of a byte sequence, following the standard table of
well-formed sequences (as enforced by Rust's `str::from_utf8`). -/
def utf8Valid : Bytes → Bool
  | [] => true
  | b :: rest =>
    if b < 128 then utf8Valid rest
    else if 194 ≤ b && b ≤ 223 then
      match rest with
      | c1 :: r => utf8Cont c1 && utf8Valid r
      | [] => false
    else if b = 224 then
      match rest with
      | c1 :: c2 :: r => (160 ≤ c1 && c1 ≤ 191) && utf8Cont c2 && utf8Valid r
      | _ => false
    else if 225 ≤ b && b ≤ 236 then
      match rest with
      | c1 :: c2 :: r => utf8Cont c1 && utf8Cont c2 && utf8Valid r
      | _ => false
    else if b = 237 then
      match rest with
      | c1 :: c2 :: r => (128 ≤ c1 && c1 ≤ 159) && utf8Cont c2 && utf8Valid r
      | _ => false
    else if 238 ≤ b && b ≤ 239 then
      match rest with
      | c1 :: c2 :: r => utf8Cont c1 && utf8Cont c2 && utf8Valid r
      | _ => false
    else if b = 240 then
      match rest with
      | c1 :: c2 :: c3 :: r =>
        (144 ≤ c1 && c1 ≤ 191) && utf8Cont c2 && utf8Cont c3 && utf8Valid r
      | _ => false
    else if 241 ≤ b && b ≤ 243 then
      match rest with
      | c1 :: c2 :: c3 :: r => utf8Cont c1 && utf8Cont c2 && utf8Cont c3 && utf8Valid r
      | _ => false
    else if b = 244 then
      match rest with
      | c1 :: c2 :: c3 :: r =>
        (128 ≤ c1 && c1 ≤ 143) && utf8Cont c2 && utf8Cont c3 && utf8Valid r
      | _ => false
    else false

/-- Splits a buffer at its first NUL byte: the bytes before the terminator and
the bytes after it, or `none` when no terminator exists. -/
def nt_split : Bytes → Option (Bytes × Bytes)
  | [] => none
  | 0 :: rest => some ([], rest)
  | (b + 1) :: rest => (nt_split rest).map (fun p => ((b + 1) :: p.1, p.2))

/-- Modelled from the spec: `parse::nt_string` (src/util/parse.rs is not among
the sources).  Reads bytes up to and including a terminating `0x00`; the
returned string is the bytes before the terminator, validated as UTF-8.  Fails
`NoNullTerm` without a terminator, `Utf8` on invalid UTF-8. -/
def nt_string (bs : Bytes) : PResult Bytes :=
  match nt_split bs with
  | none => .error .noNullTerm
  | some (s, rest) => if utf8Valid s then .ok (s, rest) else .error .utf8Err

/-- Value of an ASCII hex digit, case-insensitive (spec section 4.2). -/
def hexDigitVal (c : Nat) : Option Nat :=
  if 48 ≤ c ∧ c ≤ 57 then some (c - 48)
  else if 97 ≤ c ∧ c ≤ 102 then some (c - 87)
  else if 65 ≤ c ∧ c ≤ 70 then some (c - 55)
  else none

/-- Decodes an even-length ASCII-hex byte sequence into raw bytes, or `none`
if a non-hex byte appears or the length is odd. -/
def hexDecodeRaw : Bytes → Option Bytes
  | [] => some []
  | [_] => none
  | c0 :: c1 :: rest =>
    match hexDigitVal c0, hexDigitVal c1, hexDecodeRaw rest with
    | some h, some l, some out => some ((h * 16 + l) :: out)
    | _, _, _ => none

/-- Lowercase ASCII hex digit for a value below 16. -/
def toHexChar (d : Nat) : Nat := if d < 10 then 48 + d else 87 + d

/-- Modelled from the spec: `hex::encode_into` / `encode_into_buf`
(src/util/hex.rs is not among the sources).  Writes two lowercase ASCII hex
bytes per input byte (spec section 4.2). -/
def hexEncode : Bytes → Bytes
  | [] => []
  | b :: rest => toHexChar (b / 16 % 16) :: toHexChar (b % 16) :: hexEncode rest

/-- Removes the trailing zero bytes of a byte sequence. -/
def trimTrailingZeros (bs : Bytes) : Bytes :=
  (bs.reverse.dropWhile (fun b => b == 0)).reverse

/-- Modelled from the spec: `parse::np_hex_string` (src/util/parse.rs is not
among the sources).  Reads exactly `limit` bytes, failing `Incomplete` when
fewer remain.  The hex region ends at the first NUL byte — the encoder pads
hex parts with NUL bytes, as the wire-format test vectors in `src/packet.rs`
show — and the region is hex-decoded (case-insensitive), failing `Hex` on a
non-hex byte or an odd-length region.  The decoded sequence is then trimmed of
trailing zero bytes (spec sections 4.1, 6 and 9: the trailing-zero trim that
conflates a legitimate trailing zero byte with padding). -/
def np_hex_string (bs : Bytes) (limit : Nat) : PResult Bytes :=
  if bs.length < limit then .error (.incomplete (limit - bs.length))
  else
    match hexDecodeRaw ((bs.take limit).takeWhile (fun b => b != 0)) with
    | none => .error .hexErr
    | some out => .ok (trimTrailingZeros out, bs.drop limit)

/-- Membership test of flag bits, as `bitflags`' `contains`: all bits of the
mask are set. -/
def containsFlag (flags mask : Nat) : Bool := flags &&& mask == mask

/-- Mask of the defined `PacketFlags` bits: NAME 0x01, TUNNEL 0x02,
DATAGRAM 0x04, DOWNLOAD 0x08, CHUNKED_DOWNLOAD 0x10, COMMAND 0x20,
ENCRYPTED 0x40. -/
def definedFlagsMask : Nat := 127

/-- Truncation to the defined flag bits, as `PacketFlags::from_bits_truncate`. -/
def flagsTruncate (w : Nat) : Nat := w &&& definedFlagsMask

/-- Packet kinds of `src/packet.rs`. -/
inductive PacketKind where
  | SYN
  | MSG
  | FIN
  | ENC
  | PING
  | Other (v : Nat)
deriving DecidableEq

/-- Discriminant byte of a packet kind (`impl From<PacketKind> for u8`). -/
def PacketKind.toByte : PacketKind → Nat
  | .SYN => 0
  | .MSG => 1
  | .FIN => 2
  | .ENC => 3
  | .PING => 255
  | .Other v => v

/-- Packet kind of a discriminant byte (`impl From<u8> for PacketKind`). -/
def PacketKind.ofByte (v : Nat) : PacketKind :=
  if v = 0 then .SYN
  else if v = 1 then .MSG
  else if v = 2 then .FIN
  else if v = 3 then .ENC
  else if v = 255 then .PING
  else .Other v

/-- Session framing: true exactly for SYN, MSG, FIN and ENC. -/
def PacketKind.isSessionFramed : PacketKind → Bool
  | .SYN | .MSG | .FIN | .ENC => true
  | .PING | .Other _ => false

/-- A `SYN` packet body (`SynBody` in `src/packet.rs`). -/
structure SynBody where
  init_seq : Nat
  flags : Nat
  sess_name : Bytes
deriving DecidableEq

/-- True if the `NAME` packet flag is set. -/
def SynBody.has_session_name (s : SynBody) : Bool := containsFlag s.flags 1

/-- The session name, present exactly when the `NAME` flag is set. -/
def SynBody.session_name (s : SynBody) : Option Bytes :=
  if s.has_session_name then some s.sess_name else none

/-- Constructor `SynBody::new`: COMMAND and ENCRYPTED flags from the two
boolean arguments, empty session name. -/
def SynBody.mkNew (initSeq : Nat) (command encrypted : Bool) : SynBody :=
  ⟨initSeq, (cond command 32 0) ||| (cond encrypted 64 0), []⟩

/-- Setter `SynBody::set_session_name`: inserts the NAME flag and stores the
name (the Rust code asserts the name is nonempty). -/
def SynBody.withSessionName (s : SynBody) (name : Bytes) : SynBody :=
  ⟨s.init_seq, s.flags ||| 1, name⟩

/-- Encoder of `SynBody`: init sequence, flags word, then the null-terminated
name when the NAME flag is set. -/
def SynBody.encode (s : SynBody) : Bytes :=
  u16Bytes s.init_seq ++ u16Bytes s.flags ++
    (cond s.has_session_name (s.sess_name ++ [0]) [])

/-- Decoder of `SynBody`: init sequence, flags word truncated to the defined
bits, then a null-terminated name exactly when the truncated word contains the
NAME flag. -/
def SynBody.decode (bs : Bytes) : PResult SynBody :=
  match be_u16 bs with
  | .error e => .error e
  | .ok (init_seq, bs) =>
    match be_u16 bs with
    | .error e => .error e
    | .ok (flags_raw, bs) =>
      if containsFlag (flagsTruncate flags_raw) 1 then
        match nt_string bs with
        | .error e => .error e
        | .ok (name, bs) => .ok (⟨init_seq, flagsTruncate flags_raw, name⟩, bs)
      else .ok (⟨init_seq, flagsTruncate flags_raw, []⟩, bs)

/-- A `MSG` packet body (`MsgBody` in `src/packet.rs`). -/
structure MsgBody where
  seq : Nat
  ack : Nat
  data : Bytes
deriving DecidableEq

/-- Encoder of `MsgBody`: seq, ack, then the raw data bytes. -/
def MsgBody.encode (m : MsgBody) : Bytes :=
  u16Bytes m.seq ++ u16Bytes m.ack ++ m.data

/-- Decoder of `MsgBody`: seq, ack, then all remaining bytes as data. -/
def MsgBody.decode (bs : Bytes) : PResult MsgBody :=
  match be_u16 bs with
  | .error e => .error e
  | .ok (seq, bs) =>
    match be_u16 bs with
    | .error e => .error e
    | .ok (ack, bs) => .ok (⟨seq, ack, bs⟩, [])

/-- A `FIN` packet body (`FinBody` in `src/packet.rs`). -/
structure FinBody where
  reason : Bytes
deriving DecidableEq

/-- Encoder of `FinBody`: the null-terminated reason. -/
def FinBody.encode (f : FinBody) : Bytes := f.reason ++ [0]

/-- Decoder of `FinBody`: a null-terminated reason string. -/
def FinBody.decode (bs : Bytes) : PResult FinBody :=
  match nt_string bs with
  | .error e => .error e
  | .ok (reason, bs) => .ok (⟨reason⟩, bs)

/-- Encryption body kinds (`EncBodyKind` in `src/packet.rs`). -/
inductive EncBodyKind where
  | INIT
  | AUTH
deriving DecidableEq

/-- Discriminant byte of an encryption body kind. -/
def EncBodyKind.toByte : EncBodyKind → Nat
  | .INIT => 0
  | .AUTH => 1

/-- Supported encryption body kind of a byte (`EncBodyKind::from_u8`). -/
def EncBodyKind.from_u8 (v : Nat) : Option EncBodyKind :=
  if v = 0 then some .INIT else if v = 1 then some .AUTH else none

/-- Encryption body variants (`EncBodyVariant` in `src/packet.rs`). -/
inductive EncBodyVariant where
  | initBody (public_key_x public_key_y : Bytes)
  | authBody (authenticator : Bytes)
deriving DecidableEq

/-- Kind of an encryption body variant. -/
def EncBodyVariant.kind : EncBodyVariant → EncBodyKind
  | .initBody _ _ => .INIT
  | .authBody _ => .AUTH

/-- Encoder of one hex part (`EncBodyVariant::encode_part`): the lowercase hex
digits of the raw bytes, resized with zero bytes to exactly 32 bytes (Rust's
`Vec::resize_with` pads with the produced zeros, or truncates when longer). -/
def encode_part (part : Bytes) : Bytes :=
  let h := hexEncode part
  (h ++ List.replicate (32 - h.length) 0).take 32

/-- Decoder of one hex part (`EncBodyVariant::decode_part`): a 32-byte
null-padded hex field. -/
def decode_part (bs : Bytes) : PResult Bytes := np_hex_string bs 32

/-- Encoder of `EncBodyVariant`: the hex parts of the variant in order. -/
def EncBodyVariant.encode : EncBodyVariant → Bytes
  | .initBody x y => encode_part x ++ encode_part y
  | .authBody a => encode_part a

/-- Decoder of `EncBodyVariant` for a given encryption body kind. -/
def EncBodyVariant.decode_kind (kind : EncBodyKind) (bs : Bytes) :
    PResult EncBodyVariant :=
  match kind with
  | .INIT =>
    match decode_part bs with
    | .error e => .error e
    | .ok (x, bs) =>
      match decode_part bs with
      | .error e => .error e
      | .ok (y, bs) => .ok (.initBody x y, bs)
  | .AUTH =>
    match decode_part bs with
    | .error e => .error e
    | .ok (a, bs) => .ok (.authBody a, bs)

/-- An `ENC` packet body (`EncBody` in `src/packet.rs`). -/
structure EncBody where
  cryp_flags : Nat
  body : EncBodyVariant
deriving DecidableEq

/-- Encoder of `EncBody`: kind byte, crypto flags, then the variant. -/
def EncBody.encode (e : EncBody) : Bytes :=
  e.body.kind.toByte :: (u16Bytes e.cryp_flags ++ e.body.encode)

/-- Decoder of `EncBody`: kind byte (rejecting unknown kinds), crypto flags,
then the variant for that kind. -/
def EncBody.decode (bs : Bytes) : PResult EncBody :=
  match be_u8 bs with
  | .error e => .error e
  | .ok (kindByte, bs) =>
    match EncBodyKind.from_u8 kindByte with
    | none => .error (.unknownEncKind kindByte)
    | some kind =>
      match be_u16 bs with
      | .error e => .error e
      | .ok (cryp_flags, bs) =>
        match EncBodyVariant.decode_kind kind bs with
        | .error e => .error e
        | .ok (body, bs) => .ok (⟨cryp_flags, body⟩, bs)

/-- A `PING` packet body (`PingBody` in `src/packet.rs`). -/
structure PingBody where
  ping_id : Nat
  data : Bytes
deriving DecidableEq

/-- Encoder of `PingBody`: ping id then the null-terminated data. -/
def PingBody.encode (p : PingBody) : Bytes :=
  u16Bytes p.ping_id ++ p.data ++ [0]

/-- Decoder of `PingBody`: ping id then a null-terminated data string. -/
def PingBody.decode (bs : Bytes) : PResult PingBody :=
  match be_u16 bs with
  | .error e => .error e
  | .ok (ping_id, bs) =>
    match nt_string bs with
    | .error e => .error e
    | .ok (data, bs) => .ok (⟨ping_id, data⟩, bs)

/-- Fully-decoded session bodies (`SupportedSessionBody` in `src/packet.rs`). -/
inductive SupportedSessionBody where
  | syn (s : SynBody)
  | msg (m : MsgBody)
  | fin (f : FinBody)
  | enc (e : EncBody)
deriving DecidableEq

/-- Packet kind of a fully-decoded session body. -/
def SupportedSessionBody.kind : SupportedSessionBody → PacketKind
  | .syn _ => .SYN
  | .msg _ => .MSG
  | .fin _ => .FIN
  | .enc _ => .ENC

/-- Encoder of a fully-decoded session body. -/
def SupportedSessionBody.encode : SupportedSessionBody → Bytes
  | .syn s => s.encode
  | .msg m => m.encode
  | .fin f => f.encode
  | .enc e => e.encode

/-- Decoder dispatch of a fully-decoded session body for a packet kind. -/
def SupportedSessionBody.decode_kind (kind : PacketKind) (bs : Bytes) :
    PResult SupportedSessionBody :=
  match kind with
  | .SYN =>
    match SynBody.decode bs with
    | .error e => .error e
    | .ok (s, bs) => .ok (.syn s, bs)
  | .MSG =>
    match MsgBody.decode bs with
    | .error e => .error e
    | .ok (m, bs) => .ok (.msg m, bs)
  | .FIN =>
    match FinBody.decode bs with
    | .error e => .error e
    | .ok (f, bs) => .ok (.fin f, bs)
  | .ENC =>
    match EncBody.decode bs with
    | .error e => .error e
    | .ok (e, bs) => .ok (.enc e, bs)
  | other => .error (.unknownKind other.toByte)

/-- An undecoded session body (`SessionBodyBytes` in `src/packet.rs`): the
packet kind and the raw body bytes. -/
structure SessionBodyBytes where
  kind : PacketKind
  body : Bytes
deriving DecidableEq

/-- Encoder of an undecoded session body: the captured bytes verbatim. -/
def SessionBodyBytes.encode (s : SessionBodyBytes) : Bytes := s.body

/-- Decoder of an undecoded session body: captures all remaining bytes. -/
def SessionBodyBytes.decode_kind (kind : PacketKind) (bs : Bytes) :
    PResult SessionBodyBytes := .ok (⟨kind, bs⟩, [])

/-- A session body frame (`SessionBodyFrame<T>` in `src/packet.rs`). -/
structure SessionFrame (β : Type) where
  id : Nat
  body : β
deriving DecidableEq

/-- Generic packet body (`SupportedBody<T>` in `src/packet.rs`). -/
inductive SupportedBody (β : Type) where
  | ping (p : PingBody)
  | session (f : SessionFrame β)
deriving DecidableEq

/-- A packet frame (`Packet<T>` in `src/packet.rs`). -/
structure Packet (β : Type) where
  id : Nat
  body : β
deriving DecidableEq

/-- The standard fully-decoded packet type. -/
abbrev FullPacket := Packet (SupportedBody SupportedSessionBody)

/-- The lazy packet type (`LazyPacket` in `src/packet.rs`). -/
abbrev LazyPacket := Packet (SupportedBody SessionBodyBytes)

/-- Packet kind of a fully-decoded packet body. -/
def fullBodyKind : SupportedBody SupportedSessionBody → PacketKind
  | .ping _ => .PING
  | .session f => f.body.kind

/-- Encoder of a fully-decoded packet body (session frames prepend their
session id). -/
def fullBodyEncode : SupportedBody SupportedSessionBody → Bytes
  | .ping p => p.encode
  | .session f => u16Bytes f.id ++ f.body.encode

/-- Decoder dispatch of a fully-decoded packet body (`SupportedBody`'s
`decode_kind`): PING bodies directly, session-framed kinds behind a session
id, anything else is an unknown kind. -/
def fullBodyDecodeKind (kind : PacketKind) (bs : Bytes) :
    PResult (SupportedBody SupportedSessionBody) :=
  match kind with
  | .PING =>
    match PingBody.decode bs with
    | .error e => .error e
    | .ok (p, bs) => .ok (.ping p, bs)
  | kind =>
    if kind.isSessionFramed then
      match be_u16 bs with
      | .error e => .error e
      | .ok (sid, bs) =>
        match SupportedSessionBody.decode_kind kind bs with
        | .error e => .error e
        | .ok (body, bs) => .ok (.session ⟨sid, body⟩, bs)
    else .error (.unknownKind kind.toByte)

/-- Packet kind of a lazy packet body. -/
def lazyBodyKind : SupportedBody SessionBodyBytes → PacketKind
  | .ping _ => .PING
  | .session f => f.body.kind

/-- Encoder of a lazy packet body. -/
def lazyBodyEncode : SupportedBody SessionBodyBytes → Bytes
  | .ping p => p.encode
  | .session f => u16Bytes f.id ++ f.body.encode

/-- Decoder dispatch of a lazy packet body: PING bodies are still fully
parsed, session-framed bodies capture the raw bytes after the session id. -/
def lazyBodyDecodeKind (kind : PacketKind) (bs : Bytes) :
    PResult (SupportedBody SessionBodyBytes) :=
  match kind with
  | .PING =>
    match PingBody.decode bs with
    | .error e => .error e
    | .ok (p, bs) => .ok (.ping p, bs)
  | kind =>
    if kind.isSessionFramed then
      match be_u16 bs with
      | .error e => .error e
      | .ok (sid, bs) =>
        match SessionBodyBytes.decode_kind kind bs with
        | .error e => .error e
        | .ok (body, bs) => .ok (.session ⟨sid, body⟩, bs)
    else .error (.unknownKind kind.toByte)

/-- Encoder of a full packet: packet id, kind byte, body. -/
def packetEncode (p : FullPacket) : Bytes :=
  u16Bytes p.id ++ PacketKind.toByte (fullBodyKind p.body) :: fullBodyEncode p.body

/-- Decoder of a full packet: packet id, kind byte, then the body dispatch. -/
def packetDecode (bs : Bytes) : PResult FullPacket :=
  match be_u16 bs with
  | .error e => .error e
  | .ok (pid, bs) =>
    match be_u8 bs with
    | .error e => .error e
    | .ok (kindByte, bs) =>
      match fullBodyDecodeKind (PacketKind.ofByte kindByte) bs with
      | .error e => .error e
      | .ok (body, bs) => .ok (⟨pid, body⟩, bs)

/-- Encoder of a lazy packet: packet id, kind byte, captured body. -/
def lazyPacketEncode (p : LazyPacket) : Bytes :=
  u16Bytes p.id ++ PacketKind.toByte (lazyBodyKind p.body) :: lazyBodyEncode p.body

/-- Decoder of a lazy packet. -/
def lazyPacketDecode (bs : Bytes) : PResult LazyPacket :=
  match be_u16 bs with
  | .error e => .error e
  | .ok (pid, bs) =>
    match be_u8 bs with
    | .error e => .error e
    | .ok (kindByte, bs) =>
      match lazyBodyDecodeKind (PacketKind.ofByte kindByte) bs with
      | .error e => .error e
      | .ok (body, bs) => .ok (⟨pid, body⟩, bs)

/-- A string field as carried by the codec: byte values, no NUL byte, valid
UTF-8 (Rust's `StringBytes` holds valid UTF-8; the NUL-freedom is what
null-terminated serialization preserves). -/
def StrOk (bs : Bytes) : Prop := Byteish bs ∧ 0 ∉ bs ∧ utf8Valid bs = true

/-- An ENC hex part that survives the wire: at most 16 byte values with no
trailing zero byte (the decoder's trailing-zero trim erases one). -/
def EncPartOk (part : Bytes) : Prop :=
  part.length ≤ 16 ∧ Byteish part ∧ part.getLastD 1 ≠ 0

/-- Wellformed SYN bodies: the invariant the decoder establishes.  Fields fit
their types, only defined flag bits, a wellformed name that is empty when the
NAME flag is clear. -/
def SynBody.WF (s : SynBody) : Prop :=
  s.init_seq < 65536 ∧ s.flags &&& 127 = s.flags ∧ StrOk s.sess_name ∧
    (containsFlag s.flags 1 = false → s.sess_name = [])

/-- Wellformed MSG bodies. -/
def MsgBody.WF (m : MsgBody) : Prop :=
  m.seq < 65536 ∧ m.ack < 65536 ∧ Byteish m.data

/-- Wellformed FIN bodies. -/
def FinBody.WF (f : FinBody) : Prop := StrOk f.reason

/-- Wellformed ENC body variants: every hex part survives the wire. -/
def EncBodyVariant.WF : EncBodyVariant → Prop
  | .initBody x y => EncPartOk x ∧ EncPartOk y
  | .authBody a => EncPartOk a

/-- Wellformed ENC bodies. -/
def EncBody.WF (e : EncBody) : Prop := e.cryp_flags < 65536 ∧ e.body.WF

/-- Wellformed PING bodies. -/
def PingBody.WF (p : PingBody) : Prop := p.ping_id < 65536 ∧ StrOk p.data

/-- Wellformed session bodies. -/
def SupportedSessionBody.WF : SupportedSessionBody → Prop
  | .syn s => s.WF
  | .msg m => m.WF
  | .fin f => f.WF
  | .enc e => e.WF

/-- Wellformed full packet bodies: session frames carry a 16-bit id. -/
def fullBodyWF : SupportedBody SupportedSessionBody → Prop
  | .ping p => p.WF
  | .session f => f.id < 65536 ∧ f.body.WF

/-- Wellformed full packets. -/
def packetWF (p : FullPacket) : Prop := p.id < 65536 ∧ fullBodyWF p.body

/-- SYN bodies the public constructors build: `SynBody::new` sets at most the
COMMAND and ENCRYPTED flags with an empty name, and `set_session_name` then
adds the NAME flag with a nonempty name.  Wire survival additionally needs
the name NUL-free (see the round-trip analysis). -/
def SynBody.Constructible (s : SynBody) : Prop :=
  s.init_seq < 65536 ∧
    ((s.flags ∈ ([0, 32, 64, 96] : List Nat) ∧ s.sess_name = []) ∨
     (s.flags ∈ ([1, 33, 65, 97] : List Nat) ∧ s.sess_name ≠ [] ∧
       StrOk s.sess_name))

/-- Session bodies the public constructors build, restricted to the fields
that survive the wire: NUL-free strings and ENC parts of at most 16 bytes
with no trailing zero byte. -/
def SupportedSessionBody.Constructible : SupportedSessionBody → Prop
  | .syn s => s.Constructible
  | .msg m => m.WF
  | .fin f => f.WF
  | .enc e => e.WF

/-- Full packets the public constructors build (with wire-surviving fields). -/
def packetConstructible (p : FullPacket) : Prop :=
  p.id < 65536 ∧
    match p.body with
    | .ping pb => pb.WF
    | .session f => f.id < 65536 ∧ f.body.Constructible

/-- Modelled from the spec: the connection error taxonomy of section 7
(`ConnectionError` lives in `src/conn/mod.rs`, which is not among the
sources): `Timeout` drives retry, the handshake semantic errors
`Unexpected(body)`, `EncryptionMismatch` and `Unimplemented` surface
immediately, and other transport errors are carried opaquely. -/
inductive ConnError where
  | timeout
  | encryptionMismatch
  | unimplemented
  | unexpected (body : SupportedSessionBody)
  | transport (code : Nat)
deriving DecidableEq

/-- One scripted outcome of a transport exchange as seen by the handshake: a
decoded session body, or a connection error. -/
inductive RecvOutcome where
  | ok (body : SupportedSessionBody)
  | err (e : ConnError)
deriving DecidableEq

/-- Modelled from the spec: the connection state of section 4.6
(`Connection` lives in `src/conn/mod.rs`, which is not among the sources). -/
structure Connection where
  self_seq : Nat
  peer_seq : Nat
  sess_name : Option Bytes
  command : Bool
  encrypted : Bool
  recv_max_retry : Nat
deriving DecidableEq

/-- Outcome of a handshake: a handshaken connection, an error value, a panic
(Rust's `unimplemented!()` aborts rather than returning), or the transport
script running out of replies. -/
inductive HandshakeResult where
  | ok (conn : Connection)
  | err (e : ConnError)
  | panicked
  | outOfScript
deriving DecidableEq

/-- State reconciliation after the server SYN is received
(`client_handshake` in `src/conn/handshake.rs`, lines 38 to 54): adopt the
server name if the client has none or prefers the server's and the server
carries one, take the COMMAND flag from the server, fail with
`EncryptionMismatch` when the ENCRYPTED flag disagrees with the client, and
take the peer sequence from the server SYN. -/
def handshakeFinish (conn : Connection) (prefer_server_name : Bool)
    (server_syn : SynBody) : HandshakeResult :=
  let conn :=
    if (conn.sess_name.isNone || prefer_server_name)
        && server_syn.session_name.isSome
    then { conn with sess_name := server_syn.session_name }
    else conn
  let conn := { conn with command := containsFlag server_syn.flags 32 }
  if conn.encrypted != containsFlag server_syn.flags 64 then
    .err .encryptionMismatch
  else
    .ok { conn with peer_seq := server_syn.init_seq }

/-- The SYN exchange loop of `client_handshake` (`src/conn/handshake.rs`,
lines 14 to 37), driven by the scripted receive outcomes.  Each iteration
sends one SYN and consumes one outcome; the returned number counts the SYNs
sent.  A timeout retries unless the current attempt equals `recv_max_retry`;
every other error, and any non-SYN body, returns immediately. -/
def handshakeLoop (conn : Connection) (prefer_server_name : Bool) :
    List RecvOutcome → Nat → HandshakeResult × Nat
  | [], _ => (.outOfScript, 1)
  | r :: rest, attempt =>
    match r with
    | .ok (.syn s) => (handshakeFinish conn prefer_server_name s, 1)
    | .ok body => (.err (.unexpected body), 1)
    | .err e =>
      if e = .timeout then
        if attempt = conn.recv_max_retry then (.err .timeout, 1)
        else
          let next := handshakeLoop conn prefer_server_name rest (attempt + 1)
          (next.1, next.2 + 1)
      else (.err e, 1)

/-- The encryption handshake stub (`client_encryption_handshake` in
`src/conn/handshake.rs`, lines 57 to 67): the body is `unimplemented!()`,
which panics. -/
def client_encryption_handshake (_conn : Connection) : HandshakeResult :=
  .panicked

/-- The client handshake (`client_handshake` in `src/conn/handshake.rs`): if
the connection is encrypted, run the encryption handshake first (before any
SYN is sent); then run the SYN exchange loop starting at attempt 1.  Returns
the outcome and the number of SYNs sent. -/
def client_handshake (conn : Connection) (prefer_server_name : Bool)
    (rs : List RecvOutcome) : HandshakeResult × Nat :=
  if conn.encrypted then
    match client_encryption_handshake conn with
    | .ok conn => handshakeLoop conn prefer_server_name rs 1
    | other => (other, 0)
  else handshakeLoop conn prefer_server_name rs 1

/-! ### Basic parser lemmas -/

theorem be_u16_encode (v : Nat) (rest : Bytes) (_h : v < 65536) :
    be_u16 (u16Bytes v ++ rest) = .ok (v, rest) := by
  have hd := Nat.div_add_mod v 256
  have hv : v / 256 * 256 + v % 256 = v := by omega
  simp only [u16Bytes, List.cons_append, List.nil_append, be_u16, hv]

theorem nt_split_encode (s rest : Bytes) (h : ∀ x ∈ s, x ≠ 0) :
    nt_split (s ++ 0 :: rest) = some (s, rest) := by
  induction s with
  | nil => rfl
  | cons b s ih =>
    have hb : b ≠ 0 := h b (List.mem_cons_self b s)
    have ih' := ih (fun x hx => h x (List.mem_cons_of_mem b hx))
    cases b with
    | zero => exact absurd rfl hb
    | succ b' => simp [nt_split, ih']

theorem nt_string_encode (s rest : Bytes) (h : ∀ x ∈ s, x ≠ 0)
    (hu : utf8Valid s = true) : nt_string (s ++ 0 :: rest) = .ok (s, rest) := by
  simp [nt_string, nt_split_encode s rest h, hu]

theorem nt_split_inv (bs s rest : Bytes) (h : nt_split bs = some (s, rest)) :
    bs = s ++ 0 :: rest ∧ ∀ x ∈ s, x ≠ 0 := by
  induction bs generalizing s rest with
  | nil => simp [nt_split] at h
  | cons b bs ih =>
    cases b with
    | zero =>
      simp only [nt_split, Option.some.injEq, Prod.mk.injEq] at h
      obtain ⟨h1, h2⟩ := h
      subst h1; subst h2
      simp
    | succ b' =>
      simp only [nt_split, Option.map_eq_some'] at h
      obtain ⟨⟨s', rest'⟩, hsp, heq⟩ := h
      obtain ⟨hbs, hnz⟩ := ih s' rest' hsp
      simp only [Prod.mk.injEq] at heq
      obtain ⟨h1, h2⟩ := heq
      subst h1; subst h2; subst hbs
      refine ⟨rfl, ?_⟩
      intro x hx
      rcases List.mem_cons.mp hx with hx | hx
      · omega
      · exact hnz x hx

theorem nt_string_inv (bs s rest : Bytes) (h : nt_string bs = .ok (s, rest)) :
    bs = s ++ 0 :: rest ∧ (∀ x ∈ s, x ≠ 0) ∧ utf8Valid s = true := by
  unfold nt_string at h
  cases hsp : nt_split bs with
  | none => rw [hsp] at h; exact absurd h (by simp)
  | some p =>
    obtain ⟨s', rest'⟩ := p
    rw [hsp] at h
    by_cases hu : utf8Valid s' = true
    · simp only [hu, if_true, Except.ok.injEq, Prod.mk.injEq] at h
      obtain ⟨h1, h2⟩ := h
      obtain ⟨hbs, hnz⟩ := nt_split_inv bs s' rest' hsp
      rw [h1] at hbs hnz
      rw [h2] at hbs
      rw [h1] at hu
      exact ⟨hbs, hnz, hu⟩
    · simp only [hu] at h
      simp at h

/-! ### Claim C9: session names on decoded SYN packets -/

/-- Counterexample to C9: the SYN decoder accepts an empty null-terminated
session name, so a decoded SYN with the NAME flag set can report
`session_name() = Some("")` with an empty string. -/
theorem syn_decode_accepts_empty_name :
    SynBody.decode [0, 1, 0, 1, 0] =
      .ok (⟨1, 1, []⟩, []) ∧
    SynBody.session_name ⟨1, 1, []⟩ = some [] ∧
    ([] : Bytes).length = 0 := by decide

/-- Claim C9 (amended): on every decoded SYN body, `session_name()` is `Some`
exactly when the NAME flag is set, and any reported name is valid UTF-8 and
NUL-free; the decoder does not enforce nonemptiness. -/
theorem decoded_syn_name_iff_flag (bs : Bytes) (s : SynBody) (rest : Bytes)
    (h : SynBody.decode bs = .ok (s, rest)) :
    s.session_name.isSome = containsFlag s.flags 1 ∧
    ∀ n, s.session_name = some n → utf8Valid n = true ∧ 0 ∉ n := by
  unfold SynBody.decode at h
  split at h
  · simp at h
  · split at h
    · simp at h
    · rename_i flagsRaw bs2 heq2
      by_cases hf : containsFlag (flagsTruncate flagsRaw) 1 = true
      · rw [if_pos hf] at h
        split at h
        · simp at h
        · rename_i name bs3 hnt
          simp only [Except.ok.injEq, Prod.mk.injEq] at h
          obtain ⟨hs, _⟩ := h
          subst hs
          obtain ⟨_, hnz, hu⟩ := nt_string_inv _ name bs3 hnt
          constructor
          · simp [SynBody.session_name, SynBody.has_session_name, hf]
          · intro n hn
            simp only [SynBody.session_name, SynBody.has_session_name, hf,
              if_true, Option.some.injEq] at hn
            subst hn
            exact ⟨hu, fun hmem => hnz 0 hmem rfl⟩
      · rw [if_neg hf] at h
        simp only [Except.ok.injEq, Prod.mk.injEq] at h
        obtain ⟨hs, _⟩ := h
        subst hs
        constructor
        · simp [SynBody.session_name, SynBody.has_session_name, hf]
        · intro n hn
          simp [SynBody.session_name, SynBody.has_session_name, hf] at hn

/-- Witness for the amended C9 at a concrete accepted input. -/
theorem decoded_syn_name_iff_flag_witness :
    (SynBody.session_name ⟨1, 1, [97]⟩).isSome = containsFlag 1 1 ∧
    ∀ n, SynBody.session_name ⟨1, 1, [97]⟩ = some n →
      utf8Valid n = true ∧ 0 ∉ n :=
  decoded_syn_name_iff_flag [0, 1, 0, 1, 97, 0] ⟨1, 1, [97]⟩ [] (by decide)

/-! ### Flag truncation -/

theorem containsFlag_truncate_one (w : Nat) :
    containsFlag (flagsTruncate w) 1 = containsFlag w 1 := by
  have h1 : w &&& 127 &&& 1 = w &&& 1 := by
    rw [Nat.and_assoc]
    congr 1
  simp [containsFlag, flagsTruncate, definedFlagsMask, h1]

theorem flagsTruncate_idem (w : Nat) :
    flagsTruncate w &&& definedFlagsMask = flagsTruncate w := by
  simp only [flagsTruncate, definedFlagsMask]
  rw [Nat.and_assoc]
  congr 1

/-- Claim C6: decoding a SYN with any 16-bit flags word on the wire yields
flags equal to the word's intersection with the defined set (no error from
unknown bits, for both the named and unnamed layouts), and re-encoding emits
exactly the truncated word, which contains only defined bits. -/
theorem syn_flag_truncation (w seq : Nat) (name rest : Bytes)
    (hw : w < 65536) (hseq : seq < 65536)
    (hnz : ∀ x ∈ name, x ≠ 0) (hu : utf8Valid name = true) :
    SynBody.decode (u16Bytes seq ++ u16Bytes w ++
        (cond (containsFlag w 1) (name ++ [0]) []) ++ rest) =
      .ok (⟨seq, flagsTruncate w, cond (containsFlag w 1) name []⟩, rest) ∧
    flagsTruncate w &&& definedFlagsMask = flagsTruncate w ∧
    SynBody.encode ⟨seq, flagsTruncate w, cond (containsFlag w 1) name []⟩ =
      u16Bytes seq ++ u16Bytes (flagsTruncate w) ++
        (cond (containsFlag w 1) (name ++ [0]) []) := by
  refine ⟨?_, flagsTruncate_idem w, ?_⟩
  · unfold SynBody.decode
    rw [List.append_assoc, List.append_assoc, be_u16_encode seq _ hseq]
    simp only
    rw [be_u16_encode w _ hw]
    simp only [containsFlag_truncate_one]
    cases hc : containsFlag w 1 with
    | false => simp
    | true =>
      simp only [cond_true, List.append_assoc, List.cons_append,
        List.nil_append]
      rw [nt_string_encode name rest hnz hu]
      simp
  · unfold SynBody.encode SynBody.has_session_name
    simp only [containsFlag_truncate_one]
    cases hc : containsFlag w 1 <;> simp

/-- Witness for C6 at the flags word 0x8021 (unknown bit 15, NAME, COMMAND). -/
theorem syn_flag_truncation_witness :
    SynBody.decode (u16Bytes 5 ++ u16Bytes 32801 ++
        (cond (containsFlag 32801 1) ([97, 98] ++ [0]) []) ++ [7]) =
      .ok (⟨5, flagsTruncate 32801, cond (containsFlag 32801 1) [97, 98] []⟩,
        [7]) ∧
    flagsTruncate 32801 &&& definedFlagsMask = flagsTruncate 32801 ∧
    SynBody.encode ⟨5, flagsTruncate 32801,
        cond (containsFlag 32801 1) [97, 98] []⟩ =
      u16Bytes 5 ++ u16Bytes (flagsTruncate 32801) ++
        (cond (containsFlag 32801 1) ([97, 98] ++ [0]) []) :=
  syn_flag_truncation 32801 5 [97, 98] [7] (by decide) (by decide)
    (by decide) (by decide)

/-! ### ENC hex-part encoding -/

theorem hexEncode_length (part : Bytes) :
    (hexEncode part).length = 2 * part.length := by
  induction part with
  | nil => rfl
  | cons b rest ih => simp [hexEncode, ih]; omega

theorem encode_part_eq (part : Bytes) (hlen : part.length ≤ 16) :
    encode_part part =
      hexEncode part ++ List.replicate (32 - 2 * part.length) 0 := by
  unfold encode_part
  have hl := hexEncode_length part
  have hlen32 :
      (hexEncode part ++
        List.replicate (32 - (hexEncode part).length) 0).length = 32 := by
    simp [hl]; omega
  rw [List.take_of_length_le (le_of_eq hlen32), hl]

theorem toHexChar_digit (d : Nat) (hd : d < 16) :
    (48 ≤ toHexChar d ∧ toHexChar d ≤ 57) ∨
    (97 ≤ toHexChar d ∧ toHexChar d ≤ 102) := by
  unfold toHexChar
  split <;> omega

theorem mem_hexEncode_digit (part : Bytes) (c : Nat) (hc : c ∈ hexEncode part) :
    (48 ≤ c ∧ c ≤ 57) ∨ (97 ≤ c ∧ c ≤ 102) := by
  induction part with
  | nil => simp [hexEncode] at hc
  | cons b rest ih =>
    simp only [hexEncode, List.mem_cons] at hc
    rcases hc with hc | hc | hc
    · subst hc; exact toHexChar_digit _ (Nat.mod_lt _ (by omega))
    · subst hc; exact toHexChar_digit _ (Nat.mod_lt _ (by omega))
    · exact ih hc

/-- Counterexample to C2: `encode_part` pads the hex digits of `[0x03]` with
NUL bytes (0x00), not with ASCII zero digits (0x30). -/
theorem encode_part_not_ascii_zero_padding :
    encode_part [3] = 48 :: 51 :: List.replicate 30 0 ∧
    encode_part [3] ≠ 48 :: 51 :: List.replicate 30 48 := by decide

/-- Claim C2 (amended): a hex part of n raw bytes (n ≤ 16) is written as its
2n lowercase ASCII hex digits followed by NUL bytes (0x00) up to exactly 32
bytes on the wire. -/
theorem enc_part_encoding (part : Bytes) (hlen : part.length ≤ 16) :
    encode_part part =
      hexEncode part ++ List.replicate (32 - 2 * part.length) 0 ∧
    (encode_part part).length = 32 ∧
    (hexEncode part).length = 2 * part.length ∧
    ∀ c ∈ hexEncode part, (48 ≤ c ∧ c ≤ 57) ∨ (97 ≤ c ∧ c ≤ 102) := by
  have he := encode_part_eq part hlen
  have hl := hexEncode_length part
  refine ⟨he, ?_, hl, fun c hc => mem_hexEncode_digit part c hc⟩
  rw [he]
  simp [hl]; omega

/-- Witness for the amended C2 at the one-byte part `[0x03]`. -/
theorem enc_part_encoding_witness :
    encode_part [3] = hexEncode [3] ++ List.replicate (32 - 2 * 1) 0 ∧
    (encode_part [3]).length = 32 ∧
    (hexEncode [3]).length = 2 * 1 ∧
    ∀ c ∈ hexEncode [3], (48 ≤ c ∧ c ≤ 57) ∨ (97 ≤ c ∧ c ≤ 102) := by
  have h := enc_part_encoding [3] (by decide)
  simpa using h

/-! ### Encryption handshake stub -/

theorem handshakeLoop_no_panic (conn : Connection) (prefer : Bool) :
    ∀ (rs : List RecvOutcome) (attempt : Nat),
      (handshakeLoop conn prefer rs attempt).1 ≠ .panicked := by
  obtain ⟨ss, ps, sn, cmd, enc, mr⟩ := conn
  intro rs
  induction rs with
  | nil => intro attempt; simp [handshakeLoop]
  | cons r rest ih =>
    intro attempt
    match r with
    | .ok (.syn s) =>
      simp only [handshakeLoop]
      simp only [handshakeFinish]
      split <;> split <;> simp
    | .ok (.msg m) => simp [handshakeLoop]
    | .ok (.fin f) => simp [handshakeLoop]
    | .ok (.enc e) => simp [handshakeLoop]
    | .err e =>
      simp only [handshakeLoop]
      by_cases ht : e = .timeout
      · rw [if_pos ht]
        by_cases ha : attempt = mr
        · rw [if_pos ha]; simp
        · rw [if_neg ha]
          simpa using ih (attempt + 1)
      · rw [if_neg ht]; simp

/-- Counterexample to C5: with `encrypted = true` the encryption handshake
step panics (`unimplemented!()`), it does not return the `Unimplemented`
error value. -/
theorem encryption_stub_not_error_value :
    client_handshake ⟨0, 0, none, false, true, 1⟩ false [] = (.panicked, 0) ∧
    (HandshakeResult.panicked ≠ .err .unimplemented) := by decide

/-- Claim C5 (amended): with `encrypted = true` the handshake reaches the
encryption handshake stub before any SYN is sent (zero SYNs sent) and the
stub panics rather than returning a value; with `encrypted = false` the stub
is never reached, so no handshake outcome is a panic. -/
theorem encryption_handshake_stub (conn : Connection) (prefer : Bool)
    (rs : List RecvOutcome) :
    (conn.encrypted = true →
      client_handshake conn prefer rs = (.panicked, 0) ∧
      client_encryption_handshake conn = .panicked) ∧
    (conn.encrypted = false →
      (client_handshake conn prefer rs).1 ≠ .panicked) := by
  constructor
  · intro he
    exact ⟨by simp [client_handshake, he, client_encryption_handshake], rfl⟩
  · intro he
    simp only [client_handshake, he, Bool.false_eq_true, if_false]
    exact handshakeLoop_no_panic conn prefer rs 1

/-- Witness for the amended C5 on both sides of the `encrypted` field. -/
theorem encryption_handshake_stub_witness :
    (client_handshake ⟨0, 0, none, false, true, 1⟩ false [] =
        (.panicked, 0) ∧
      client_encryption_handshake ⟨0, 0, none, false, true, 1⟩ = .panicked) ∧
    (client_handshake ⟨0, 0, none, false, false, 1⟩ false []).1 ≠ .panicked :=
  ⟨(encryption_handshake_stub ⟨0, 0, none, false, true, 1⟩ false []).1 rfl,
   (encryption_handshake_stub ⟨0, 0, none, false, false, 1⟩ false []).2 rfl⟩

/-! ### Handshake reconciliation -/

/-- Claim C8: with `encrypted = false` and a server SYN whose ENCRYPTED flag
is set, the handshake surfaces `EncryptionMismatch` and no handshaken
connection is returned. -/
theorem handshake_encryption_mismatch (conn : Connection) (prefer : Bool)
    (s : SynBody) (henc : conn.encrypted = false)
    (hflag : containsFlag s.flags 64 = true) :
    client_handshake conn prefer [.ok (.syn s)] =
      (.err .encryptionMismatch, 1) := by
  obtain ⟨ss, ps, sn, cmd, enc, mr⟩ := conn
  simp only at henc
  subst henc
  simp only [client_handshake, Bool.false_eq_true, if_false, handshakeLoop,
    handshakeFinish, hflag]
  split <;> simp [hflag]

/-- Witness for C8 at a concrete connection and server SYN. -/
theorem handshake_encryption_mismatch_witness :
    client_handshake ⟨1, 0, none, false, false, 2⟩ false
        [.ok (.syn ⟨9, 64, []⟩)] =
      (.err .encryptionMismatch, 1) :=
  handshake_encryption_mismatch ⟨1, 0, none, false, false, 2⟩ false
    ⟨9, 64, []⟩ rfl (by decide)

/-- Claim C7: after a successful handshake over a server SYN, the session
name is the server's when the client had none, stays the client's when
`prefer_server_name` is false, and becomes the server's when
`prefer_server_name` is true and the server carries one. -/
theorem handshake_name_negotiation (conn : Connection) (prefer : Bool)
    (s : SynBody) (henc : conn.encrypted = false)
    (hflag : containsFlag s.flags 64 = false) :
    ∃ c, client_handshake conn prefer [.ok (.syn s)] = (.ok c, 1) ∧
      (conn.sess_name = none → ∀ n, s.session_name = some n →
        c.sess_name = some n) ∧
      (prefer = false → ∀ m, conn.sess_name = some m →
        c.sess_name = some m) ∧
      (prefer = true → ∀ n, s.session_name = some n →
        c.sess_name = some n) := by
  obtain ⟨ss, ps, sn, cmd, enc, mr⟩ := conn
  simp only at henc
  subst henc
  by_cases hcond : ((sn.isNone || prefer) && s.session_name.isSome) = true
  · refine ⟨⟨ss, s.init_seq, s.session_name, containsFlag s.flags 32,
      false, mr⟩, ?_, ?_, ?_, ?_⟩
    · simp [client_handshake, handshakeLoop, handshakeFinish, hcond, hflag]
    · intro _ n hn; simpa using hn
    · intro hp m hm
      simp only [hp, Bool.or_false] at hcond
      simp only [Bool.and_eq_true] at hcond
      obtain ⟨hnone, _⟩ := hcond
      simp only at hm
      rw [hm] at hnone
      simp at hnone
    · intro _ n hn; simpa using hn
  · refine ⟨⟨ss, s.init_seq, sn, containsFlag s.flags 32, false, mr⟩,
      ?_, ?_, ?_, ?_⟩
    · simp only [client_handshake, Bool.false_eq_true, if_false,
        handshakeLoop, handshakeFinish, hcond]
      simp [hflag]
    · intro hnone n hn
      simp only at hnone
      rw [hnone, hn] at hcond
      simp at hcond
    · intro _ m hm; simpa using hm
    · intro hp n hn
      rw [hp, hn] at hcond
      simp at hcond

/-- Witness for C7 at the scenario of spec section 8 item S6: client without
a name adopting the server name. -/
theorem handshake_name_negotiation_witness :
    ∃ c, client_handshake ⟨1, 0, none, false, false, 2⟩ true
        [.ok (.syn ⟨9, 33, [115, 114, 118]⟩)] = (.ok c, 1) ∧
      ((none : Option Bytes) = none →
        ∀ n, SynBody.session_name ⟨9, 33, [115, 114, 118]⟩ = some n →
          c.sess_name = some n) ∧
      (true = false → ∀ m, (none : Option Bytes) = some m →
        c.sess_name = some m) ∧
      (true = true →
        ∀ n, SynBody.session_name ⟨9, 33, [115, 114, 118]⟩ = some n →
          c.sess_name = some n) :=
  handshake_name_negotiation ⟨1, 0, none, false, false, 2⟩ true
    ⟨9, 33, [115, 114, 118]⟩ rfl (by decide)

/-! ### Handshake retry bound -/

theorem handshakeLoop_skip_timeouts (conn : Connection) (prefer : Bool)
    (rs : List RecvOutcome) :
    ∀ (n attempt : Nat), attempt + n ≤ conn.recv_max_retry →
      handshakeLoop conn prefer
          (List.replicate n (.err .timeout) ++ rs) attempt =
        ((handshakeLoop conn prefer rs (attempt + n)).1,
         (handshakeLoop conn prefer rs (attempt + n)).2 + n) := by
  intro n
  induction n with
  | zero => intro attempt _; simp
  | succ n ih =>
    intro attempt hle
    have hne : attempt ≠ conn.recv_max_retry := by omega
    simp only [List.replicate_succ, List.cons_append, handshakeLoop,
      List.append_eq, if_pos rfl, if_neg hne, if_true]
    rw [ih (attempt + 1) (by omega)]
    have harith : attempt + 1 + n = attempt + (n + 1) := by omega
    rw [harith]
    dsimp only
    simp only [Prod.mk.injEq, true_and]
    omega

theorem handshakeLoop_timeout_exhaust (conn : Connection) (prefer : Bool)
    (rs : List RecvOutcome) :
    ∀ (n attempt : Nat), 1 ≤ attempt → attempt ≤ conn.recv_max_retry →
      conn.recv_max_retry < attempt + n →
      handshakeLoop conn prefer
          (List.replicate n (.err .timeout) ++ rs) attempt =
        (.err .timeout, conn.recv_max_retry - attempt + 1) := by
  intro n
  induction n with
  | zero => intro attempt _ h1 h2; omega
  | succ n ih =>
    intro attempt h0 h1 h2
    by_cases ha : attempt = conn.recv_max_retry
    · simp only [List.replicate_succ, List.cons_append, handshakeLoop,
        List.append_eq, if_pos rfl, if_pos ha, if_true]
      rw [ha]
      simp
    · simp only [List.replicate_succ, List.cons_append, handshakeLoop,
        List.append_eq, if_pos rfl, if_neg ha, if_true]
      rw [ih (attempt + 1) (by omega) (by omega) (by omega)]
      dsimp only
      simp only [Prod.mk.injEq, true_and]
      omega

theorem handshakeFinish_ok_of_flags (ss ps : Nat) (sn : Option Bytes)
    (cmd : Bool) (mr : Nat) (prefer : Bool) (s : SynBody)
    (hflag : containsFlag s.flags 64 = false) :
    ∃ c, handshakeFinish ⟨ss, ps, sn, cmd, false, mr⟩ prefer s = .ok c := by
  by_cases hcond : ((sn.isNone || prefer) && s.session_name.isSome) = true
  · exact ⟨⟨ss, s.init_seq, s.session_name, containsFlag s.flags 32,
      false, mr⟩, by simp [handshakeFinish, hcond, hflag]⟩
  · exact ⟨⟨ss, s.init_seq, sn, containsFlag s.flags 32, false, mr⟩,
      by simp only [handshakeFinish, hcond, if_false,
        Bool.false_eq_true]; simp [hflag]⟩

/-- Claim C4: with `encrypted = false` and `recv_max_retry ≥ 1`, against a
transport that times out N times and then delivers a valid server SYN the
handshake succeeds exactly when N is below `recv_max_retry` (sending N+1
SYNs), surfaces `Timeout` after `recv_max_retry` attempts otherwise, and any
error other than `Timeout` is surfaced immediately without retry. -/
theorem handshake_retry_bound (conn : Connection) (prefer : Bool) (N : Nat)
    (s : SynBody) (e : ConnError) (rs2 : List RecvOutcome)
    (henc : conn.encrypted = false) (hretry : 1 ≤ conn.recv_max_retry)
    (hflag : containsFlag s.flags 64 = false) :
    (N < conn.recv_max_retry →
      ∃ c, client_handshake conn prefer
          (List.replicate N (.err .timeout) ++ [.ok (.syn s)]) =
        (.ok c, N + 1)) ∧
    (conn.recv_max_retry ≤ N →
      client_handshake conn prefer
          (List.replicate N (.err .timeout) ++ [.ok (.syn s)]) =
        (.err .timeout, conn.recv_max_retry)) ∧
    (e ≠ .timeout → ∀ k, k < conn.recv_max_retry →
      client_handshake conn prefer
          (List.replicate k (.err .timeout) ++ .err e :: rs2) =
        (.err e, k + 1)) := by
  obtain ⟨ss, ps, sn, cmd, enc, mr⟩ := conn
  simp only at henc hretry ⊢
  subst henc
  refine ⟨?_, ?_, ?_⟩
  · intro hN
    obtain ⟨c, hc⟩ :=
      handshakeFinish_ok_of_flags ss ps sn cmd mr prefer s hflag
    refine ⟨c, ?_⟩
    simp only [client_handshake, Bool.false_eq_true, if_false]
    rw [handshakeLoop_skip_timeouts _ prefer _ N 1
      (by show 1 + N ≤ mr; omega)]
    simp only [handshakeLoop, hc]
    simp only [Prod.mk.injEq, true_and]
    omega
  · intro hN
    simp only [client_handshake, Bool.false_eq_true, if_false]
    rw [handshakeLoop_timeout_exhaust _ prefer _ N 1 (by omega)
      (by show 1 ≤ mr; omega) (by show mr < 1 + N; omega)]
    simp only [Prod.mk.injEq, true_and]
    show mr - 1 + 1 = mr
    omega
  · intro he k hk
    simp only [client_handshake, Bool.false_eq_true, if_false]
    rw [handshakeLoop_skip_timeouts _ prefer _ k 1
      (by show 1 + k ≤ mr; omega)]
    simp only [handshakeLoop, if_neg he]
    simp only [Prod.mk.injEq, true_and]
    omega

/-- Witness for C4: one timeout against a retry bound of two, and an
immediate non-timeout error. -/
theorem handshake_retry_bound_witness :
    (1 < 2 →
      ∃ c, client_handshake ⟨1, 0, none, false, false, 2⟩ false
          (List.replicate 1 (.err .timeout) ++ [.ok (.syn ⟨9, 32, []⟩)]) =
        (.ok c, 1 + 1)) ∧
    (2 ≤ 1 →
      client_handshake ⟨1, 0, none, false, false, 2⟩ false
          (List.replicate 1 (.err .timeout) ++ [.ok (.syn ⟨9, 32, []⟩)]) =
        (.err .timeout, 2)) ∧
    (ConnError.encryptionMismatch ≠ .timeout →
      ∀ k, k < 2 →
        client_handshake ⟨1, 0, none, false, false, 2⟩ false
            (List.replicate k (.err .timeout) ++
              .err .encryptionMismatch :: []) =
          (.err .encryptionMismatch, k + 1)) :=
  handshake_retry_bound ⟨1, 0, none, false, false, 2⟩ false 1 ⟨9, 32, []⟩
    .encryptionMismatch [] rfl (by decide) (by decide)

/-! ### Lazy decoding of session-framed packets -/

theorem ofByte_toByte_sessionFramed (kind : PacketKind)
    (hk : kind.isSessionFramed = true) :
    PacketKind.ofByte kind.toByte = kind := by
  cases kind <;> simp_all [PacketKind.isSessionFramed, PacketKind.toByte,
    PacketKind.ofByte]

/-- Claim C10: for every session-framed kind and arbitrary body bytes, lazy
decoding always succeeds, captures the bytes after the session id verbatim,
re-encodes them unchanged, and on inputs of at least five bytes whose kind
byte is session-framed the lazy decoder cannot fail at all (so failures can
occur only while reading the packet id, kind byte or session id). -/
theorem lazy_session_decode (pid sid : Nat) (rest : Bytes)
    (kind : PacketKind) (hp : pid < 65536) (hs : sid < 65536)
    (hk : kind.isSessionFramed = true) :
    lazyPacketDecode (u16Bytes pid ++ kind.toByte :: (u16Bytes sid ++ rest)) =
      .ok (⟨pid, .session ⟨sid, ⟨kind, rest⟩⟩⟩, []) ∧
    lazyPacketEncode ⟨pid, .session ⟨sid, ⟨kind, rest⟩⟩⟩ =
      u16Bytes pid ++ kind.toByte :: (u16Bytes sid ++ rest) ∧
    ∀ b0 b1 k s0 s1 (r2 : Bytes),
      (PacketKind.ofByte k).isSessionFramed = true →
      ∃ q, lazyPacketDecode (b0 :: b1 :: k :: s0 :: s1 :: r2) = .ok q := by
  refine ⟨?_, ?_, ?_⟩
  · unfold lazyPacketDecode
    rw [be_u16_encode pid _ hp]
    simp only [be_u8]
    rw [ofByte_toByte_sessionFramed kind hk]
    cases kind <;> simp_all [lazyBodyDecodeKind, PacketKind.isSessionFramed,
      SessionBodyBytes.decode_kind, be_u16_encode sid _ hs]
  · cases kind <;> simp [lazyPacketEncode, lazyBodyKind, lazyBodyEncode,
      SessionBodyBytes.encode]
  · intro b0 b1 k s0 s1 r2 hks
    refine ⟨(Packet.mk (b0 * 256 + b1) (SupportedBody.session
      (SessionFrame.mk (s0 * 256 + s1)
        (SessionBodyBytes.mk (PacketKind.ofByte k) r2))), []), ?_⟩
    unfold lazyPacketDecode
    simp only [be_u16, be_u8]
    cases hok : PacketKind.ofByte k <;> rw [hok] at hks <;>
      simp_all [lazyBodyDecodeKind, PacketKind.isSessionFramed,
        SessionBodyBytes.decode_kind, be_u16]

/-- Witness for C10 at a MSG frame with arbitrary trailing bytes. -/
theorem lazy_session_decode_witness :
    lazyPacketDecode (u16Bytes 1 ++ PacketKind.MSG.toByte ::
        (u16Bytes 2 ++ [9])) =
      .ok (⟨1, .session ⟨2, ⟨.MSG, [9]⟩⟩⟩, []) ∧
    lazyPacketEncode ⟨1, .session ⟨2, ⟨.MSG, [9]⟩⟩⟩ =
      u16Bytes 1 ++ PacketKind.MSG.toByte :: (u16Bytes 2 ++ [9]) ∧
    ∀ b0 b1 k s0 s1 (r2 : Bytes),
      (PacketKind.ofByte k).isSessionFramed = true →
      ∃ q, lazyPacketDecode (b0 :: b1 :: k :: s0 :: s1 :: r2) = .ok q :=
  lazy_session_decode 1 2 [9] .MSG (by decide) (by decide) (by decide)

/-! ### Hex round-trip lemmas -/

theorem hexDigitVal_toHexChar (d : Nat) (hd : d < 16) :
    hexDigitVal (toHexChar d) = some d := by
  unfold toHexChar hexDigitVal
  split_ifs <;> first | (exact congrArg some (by omega)) | omega

theorem hexDecodeRaw_hexEncode (part : Bytes) (hb : Byteish part) :
    hexDecodeRaw (hexEncode part) = some part := by
  induction part with
  | nil => rfl
  | cons b rest ih =>
    have hb256 : b < 256 := hb b (List.mem_cons_self b rest)
    have h1 : b / 16 % 16 < 16 := Nat.mod_lt _ (by omega)
    have h2 : b % 16 < 16 := Nat.mod_lt _ (by omega)
    have hrec := ih (fun x hx => hb x (List.mem_cons_of_mem b hx))
    simp only [hexEncode, hexDecodeRaw, hexDigitVal_toHexChar _ h1,
      hexDigitVal_toHexChar _ h2, hrec]
    have hv : b / 16 % 16 * 16 + b % 16 = b := by omega
    rw [hv]

theorem takeWhile_append_all (p : Nat → Bool) (xs ys : Bytes)
    (h : ∀ x ∈ xs, p x = true) :
    (xs ++ ys).takeWhile p = xs ++ ys.takeWhile p := by
  induction xs with
  | nil => simp
  | cons a xs ih =>
    have ha := h a (List.mem_cons_self a xs)
    simp [List.takeWhile_cons, ha,
      ih (fun x hx => h x (List.mem_cons_of_mem a hx))]

theorem takeWhile_replicate_zero (n : Nat) :
    (List.replicate n 0).takeWhile (fun b => b != 0) = [] := by
  cases n <;> simp [List.replicate_succ, List.takeWhile_cons]

theorem trimTrailingZeros_eq_self (l : Bytes) (h : l.getLastD 1 ≠ 0) :
    trimTrailingZeros l = l := by
  unfold trimTrailingZeros
  cases hr : l.reverse with
  | nil =>
    have hl : l = [] := by simpa using hr
    subst hl
    simp
  | cons a t =>
    have hl : l = t.reverse ++ [a] := by
      have := congrArg List.reverse hr
      simpa using this
    have ha : a ≠ 0 := by
      rw [hl] at h
      simpa using h
    have hq : ¬ ((fun b => b == 0) a = true) := by simpa using ha
    have hd : List.dropWhile (fun b => b == 0) (a :: t) = a :: t :=
      List.dropWhile_cons_of_neg hq
    rw [hd, ← hr, List.reverse_reverse]

theorem np_hex_string_encode (part rest : Bytes) (h : EncPartOk part) :
    np_hex_string (encode_part part ++ rest) 32 = .ok (part, rest) := by
  obtain ⟨hlen, hb, hlast⟩ := h
  have hep := encode_part_eq part hlen
  have hlenc : (encode_part part).length = 32 := by
    rw [hep]
    simp [hexEncode_length]
    omega
  have hnz : ∀ c ∈ hexEncode part, (c != 0) = true := by
    intro c hc
    have := mem_hexEncode_digit part c hc
    simp only [bne_iff_ne, ne_eq]
    omega
  unfold np_hex_string
  rw [if_neg (by simp [hlenc])]
  have htake : (encode_part part ++ rest).take 32 = encode_part part := by
    rw [← hlenc, List.take_left]
  have hdrop : (encode_part part ++ rest).drop 32 = rest := by
    rw [← hlenc, List.drop_left]
  rw [htake, hdrop, hep, takeWhile_append_all _ _ _ hnz,
    takeWhile_replicate_zero, List.append_nil]
  simp only [hexDecodeRaw_hexEncode part hb,
    trimTrailingZeros_eq_self part hlast]

/-! ### Body round-trips under wellformedness -/

theorem synBody_decode_encode (s : SynBody) (h : s.WF) :
    SynBody.decode s.encode = .ok (s, []) := by
  obtain ⟨si, sf, sn⟩ := s
  obtain ⟨h1, h2, ⟨hb, hnz, hu⟩, h4⟩ := h
  simp only at h1 h2 hb hnz hu h4
  have hfl : sf < 65536 := by
    have hle : sf &&& 127 ≤ 127 := Nat.and_le_right
    omega
  have htr : flagsTruncate sf = sf := by
    simpa [flagsTruncate, definedFlagsMask] using h2
  have hnt : nt_string (sn ++ [0]) = .ok (sn, []) :=
    nt_string_encode sn [] (fun x hx hx0 => hnz (hx0 ▸ hx)) hu
  unfold SynBody.encode SynBody.decode SynBody.has_session_name
  simp only [List.append_assoc, be_u16_encode _ _ h1,
    be_u16_encode _ _ hfl, htr]
  cases hc : containsFlag sf 1 with
  | true =>
    simp only [hc, cond_true, if_true, List.append_nil, hnt]
  | false =>
    have hsn : sn = [] := h4 hc
    subst hsn
    simp only [hc, cond_false, Bool.false_eq_true, if_false]

theorem msgBody_decode_encode (m : MsgBody) (h : m.WF) :
    MsgBody.decode m.encode = .ok (m, []) := by
  obtain ⟨ms, ma, md⟩ := m
  obtain ⟨h1, h2, _⟩ := h
  simp only at h1 h2
  unfold MsgBody.encode MsgBody.decode
  simp only [List.append_assoc, be_u16_encode _ _ h1, be_u16_encode _ _ h2]

theorem finBody_decode_encode (f : FinBody) (h : f.WF) :
    FinBody.decode f.encode = .ok (f, []) := by
  obtain ⟨fr⟩ := f
  obtain ⟨hb, hnz, hu⟩ := h
  simp only at hb hnz hu
  have hnt : nt_string (fr ++ [0]) = .ok (fr, []) :=
    nt_string_encode fr [] (fun x hx hx0 => hnz (hx0 ▸ hx)) hu
  unfold FinBody.encode FinBody.decode
  simp only [hnt]

theorem encBodyVariant_decode_encode (v : EncBodyVariant) (h : v.WF) :
    EncBodyVariant.decode_kind v.kind v.encode = .ok (v, []) := by
  cases v with
  | initBody x y =>
    obtain ⟨hx, hy⟩ := h
    have hy2 : np_hex_string (encode_part y) 32 = .ok (y, []) := by
      have := np_hex_string_encode y [] hy
      simpa using this
    simp only [EncBodyVariant.kind, EncBodyVariant.encode,
      EncBodyVariant.decode_kind, decode_part,
      np_hex_string_encode x (encode_part y) hx, hy2]
  | authBody a =>
    have ha2 : np_hex_string (encode_part a) 32 = .ok (a, []) := by
      have := np_hex_string_encode a [] h
      simpa using this
    simp only [EncBodyVariant.kind, EncBodyVariant.encode,
      EncBodyVariant.decode_kind, decode_part, ha2]

theorem encBody_decode_encode (e : EncBody) (h : e.WF) :
    EncBody.decode e.encode = .ok (e, []) := by
  obtain ⟨cf, body⟩ := e
  obtain ⟨h1, h2⟩ := h
  simp only at h1 h2
  have hk : EncBodyKind.from_u8 body.kind.toByte = some body.kind := by
    cases body <;> rfl
  have hv := encBodyVariant_decode_encode body h2
  simp only [EncBody.encode, EncBody.decode, be_u8, hk,
    be_u16_encode _ _ h1, hv]

theorem pingBody_decode_encode (p : PingBody) (h : p.WF) :
    PingBody.decode p.encode = .ok (p, []) := by
  obtain ⟨pi, pd⟩ := p
  obtain ⟨h1, hb, hnz, hu⟩ := h
  simp only at h1 hb hnz hu
  have hnt : nt_string (pd ++ [0]) = .ok (pd, []) :=
    nt_string_encode pd [] (fun x hx hx0 => hnz (hx0 ▸ hx)) hu
  unfold PingBody.encode PingBody.decode
  simp only [List.append_assoc, be_u16_encode _ _ h1, hnt]

theorem sessionBody_decode_encode (b : SupportedSessionBody)
    (h : b.WF) : SupportedSessionBody.decode_kind b.kind b.encode =
      .ok (b, []) := by
  cases b with
  | syn s =>
    simp only [SupportedSessionBody.kind, SupportedSessionBody.encode,
      SupportedSessionBody.decode_kind, synBody_decode_encode s h]
  | msg m =>
    simp only [SupportedSessionBody.kind, SupportedSessionBody.encode,
      SupportedSessionBody.decode_kind, msgBody_decode_encode m h]
  | fin f =>
    simp only [SupportedSessionBody.kind, SupportedSessionBody.encode,
      SupportedSessionBody.decode_kind, finBody_decode_encode f h]
  | enc e =>
    simp only [SupportedSessionBody.kind, SupportedSessionBody.encode,
      SupportedSessionBody.decode_kind, encBody_decode_encode e h]

theorem SupportedSessionBody.kind_sessionFramed (b : SupportedSessionBody) :
    b.kind.isSessionFramed = true := by
  cases b <;> rfl

theorem fullBody_decode_encode (b : SupportedBody SupportedSessionBody)
    (h : fullBodyWF b) :
    fullBodyDecodeKind (fullBodyKind b) (fullBodyEncode b) = .ok (b, []) := by
  cases b with
  | ping pb =>
    simp only [fullBodyKind, fullBodyEncode, fullBodyDecodeKind]
    rw [pingBody_decode_encode pb h]
  | session f =>
    obtain ⟨fid, fbody⟩ := f
    obtain ⟨hid, hwf⟩ := h
    cases fbody with
    | syn s =>
      simp only [fullBodyKind, SupportedSessionBody.kind, fullBodyEncode,
        fullBodyDecodeKind, PacketKind.isSessionFramed, if_true]
      rw [be_u16_encode _ _ hid]
      simp only
      have hd := sessionBody_decode_encode (.syn s) hwf
      simp only [SupportedSessionBody.kind] at hd
      rw [hd]
    | msg m =>
      simp only [fullBodyKind, SupportedSessionBody.kind, fullBodyEncode,
        fullBodyDecodeKind, PacketKind.isSessionFramed, if_true]
      rw [be_u16_encode _ _ hid]
      simp only
      have hd := sessionBody_decode_encode (.msg m) hwf
      simp only [SupportedSessionBody.kind] at hd
      rw [hd]
    | fin ff =>
      simp only [fullBodyKind, SupportedSessionBody.kind, fullBodyEncode,
        fullBodyDecodeKind, PacketKind.isSessionFramed, if_true]
      rw [be_u16_encode _ _ hid]
      simp only
      have hd := sessionBody_decode_encode (.fin ff) hwf
      simp only [SupportedSessionBody.kind] at hd
      rw [hd]
    | enc e =>
      simp only [fullBodyKind, SupportedSessionBody.kind, fullBodyEncode,
        fullBodyDecodeKind, PacketKind.isSessionFramed, if_true]
      rw [be_u16_encode _ _ hid]
      simp only
      have hd := sessionBody_decode_encode (.enc e) hwf
      simp only [SupportedSessionBody.kind] at hd
      rw [hd]

theorem packetWF_roundtrip (p : FullPacket) (h : packetWF p) :
    packetDecode (packetEncode p) = .ok (p, []) := by
  obtain ⟨pid, body⟩ := p
  obtain ⟨hid, hbody⟩ := h
  unfold packetEncode packetDecode
  simp only
  rw [be_u16_encode _ _ hid]
  simp only [be_u8]
  have hof : PacketKind.ofByte (PacketKind.toByte (fullBodyKind body)) =
      fullBodyKind body := by
    cases body with
    | ping _ => rfl
    | session f =>
      exact ofByte_toByte_sessionFramed _
        (SupportedSessionBody.kind_sessionFramed f.body)
  rw [hof, fullBody_decode_encode body hbody]

theorem synConstructible_WF (s : SynBody) (h : s.Constructible) : s.WF := by
  obtain ⟨h1, h2⟩ := h
  rcases h2 with ⟨hfl, hname⟩ | ⟨hfl, hne, hstr⟩
  · simp only [List.mem_cons, List.not_mem_nil, or_false] at hfl
    refine ⟨h1, ?_, ?_, fun _ => hname⟩
    · rcases hfl with h | h | h | h <;> rw [h] <;> decide
    · rw [hname]
      exact ⟨by intro b hb; simp at hb, by simp, rfl⟩
  · simp only [List.mem_cons, List.not_mem_nil, or_false] at hfl
    refine ⟨h1, ?_, hstr, ?_⟩
    · rcases hfl with h | h | h | h <;> rw [h] <;> decide
    · intro hcf
      rcases hfl with h | h | h | h <;> rw [h] at hcf <;>
        exact absurd hcf (by decide)

/-- Counterexample to C1: the PING body with data `"\0"` (a nonempty UTF-8
string, within the stated field ranges) does not round-trip: the encoded
bytes decode to a PING with empty data and a leftover byte. -/
theorem ping_nul_data_roundtrip_fails :
    packetDecode (packetEncode ⟨1, .ping ⟨0, [0]⟩⟩) =
      .ok (⟨1, .ping ⟨0, []⟩⟩, [0]) ∧
    (⟨1, .ping ⟨0, []⟩⟩ : FullPacket) ≠ ⟨1, .ping ⟨0, [0]⟩⟩ ∧
    utf8Valid [0] = true := by decide

/-- Claim C1 (amended): for every packet the public constructors can build
whose string fields contain no NUL byte and whose ENC hex parts (at most 16
bytes) have no trailing zero byte, decoding the encoded bytes yields the
packet back with the buffer fully consumed. -/
theorem constructible_packet_roundtrip (p : FullPacket)
    (h : packetConstructible p) :
    packetDecode (packetEncode p) = .ok (p, []) := by
  apply packetWF_roundtrip
  obtain ⟨pid, body⟩ := p
  obtain ⟨hid, hbody⟩ := h
  refine ⟨hid, ?_⟩
  cases body with
  | ping pb => exact hbody
  | session f =>
    obtain ⟨fid, fbody⟩ := f
    obtain ⟨hfid, hfwf⟩ := hbody
    refine ⟨hfid, ?_⟩
    cases fbody with
    | syn s => exact synConstructible_WF s hfwf
    | msg m => exact hfwf
    | fin ff => exact hfwf
    | enc e => exact hfwf

/-- Witness for the amended C1 at an ENC INIT packet with a 15-byte and a
16-byte hex part (spec section 8 scenario S4). -/
theorem constructible_packet_roundtrip_witness :
    packetDecode (packetEncode ⟨1, .session ⟨1, .enc ⟨2,
        .initBody (List.replicate 15 3) (List.replicate 16 4)⟩⟩⟩) =
      .ok (⟨1, .session ⟨1, .enc ⟨2,
        .initBody (List.replicate 15 3) (List.replicate 16 4)⟩⟩⟩, []) :=
  constructible_packet_roundtrip _
    ⟨by decide, by decide, by decide,
     by unfold EncPartOk Byteish; decide, by unfold EncPartOk Byteish; decide⟩

/-! ### Decode inversion: every decoded packet is wellformed -/

theorem be_u8_ok (bs : Bytes) (v : Nat) (rest : Bytes)
    (h : be_u8 bs = .ok (v, rest)) (hb : Byteish bs) :
    v < 256 ∧ Byteish rest := by
  cases bs with
  | nil => exact Except.noConfusion h
  | cons b bs1 =>
    simp only [be_u8, Except.ok.injEq, Prod.mk.injEq] at h
    obtain ⟨h1, h2⟩ := h
    subst h1
    subst h2
    exact ⟨hb _ (by simp), fun x hx => hb x (by simp [hx])⟩

theorem be_u16_ok (bs : Bytes) (v : Nat) (rest : Bytes)
    (h : be_u16 bs = .ok (v, rest)) (hb : Byteish bs) :
    v < 65536 ∧ Byteish rest := by
  match bs with
  | [] => exact Except.noConfusion h
  | [b] => exact Except.noConfusion h
  | b0 :: b1 :: bs1 =>
    simp only [be_u16, Except.ok.injEq, Prod.mk.injEq] at h
    obtain ⟨h1, h2⟩ := h
    subst h1
    subst h2
    have hb0 : b0 < 256 := hb b0 (by simp)
    have hb1 : b1 < 256 := hb b1 (by simp)
    exact ⟨by omega, fun x hx => hb x (by simp [hx])⟩

theorem nt_string_ok_wf (bs s rest : Bytes)
    (h : nt_string bs = .ok (s, rest)) (hb : Byteish bs) :
    StrOk s ∧ Byteish rest := by
  obtain ⟨hbs, hnz, hu⟩ := nt_string_inv bs s rest h
  subst hbs
  refine ⟨⟨fun x hx => hb x (by simp [hx]), fun h0 => hnz 0 h0 rfl, hu⟩,
    fun x hx => hb x (by simp [hx])⟩

theorem hexDigitVal_lt (c d : Nat) (h : hexDigitVal c = some d) : d < 16 := by
  unfold hexDigitVal at h
  split_ifs at h <;>
    first
    | (injection h with h; omega)
    | exact Option.noConfusion h

theorem hexDecodeRaw_bytes : ∀ (cs out : Bytes),
    hexDecodeRaw cs = some out → Byteish out ∧ 2 * out.length = cs.length
  | [], out, h => by
    simp only [hexDecodeRaw, Option.some.injEq] at h
    subst h
    exact ⟨fun b hb => absurd hb (List.not_mem_nil b), rfl⟩
  | [c], out, h => Option.noConfusion h
  | c0 :: c1 :: rest, out, h => by
    unfold hexDecodeRaw at h
    cases h0 : hexDigitVal c0 with
    | none => rw [h0] at h; exact Option.noConfusion h
    | some d0 =>
      rw [h0] at h
      cases h1 : hexDigitVal c1 with
      | none => rw [h1] at h; exact Option.noConfusion h
      | some d1 =>
        rw [h1] at h
        cases h2 : hexDecodeRaw rest with
        | none => rw [h2] at h; exact Option.noConfusion h
        | some out1 =>
          rw [h2] at h
          simp only [Option.some.injEq] at h
          subst h
          obtain ⟨hB, hL⟩ := hexDecodeRaw_bytes rest out1 h2
          have hd0 := hexDigitVal_lt c0 d0 h0
          have hd1 := hexDigitVal_lt c1 d1 h1
          refine ⟨?_, ?_⟩
          · intro b hbm
            rcases List.mem_cons.mp hbm with hbm | hbm
            · omega
            · exact hB b hbm
          · simp only [List.length_cons]
            omega

theorem length_takeWhile_le (p : Nat → Bool) (l : Bytes) :
    (l.takeWhile p).length ≤ l.length := by
  induction l with
  | nil => simp
  | cons a l ih =>
    rw [List.takeWhile_cons]
    split <;> simp <;> omega

theorem length_dropWhile_le (p : Nat → Bool) (l : Bytes) :
    (l.dropWhile p).length ≤ l.length := by
  induction l with
  | nil => simp
  | cons a l ih =>
    rw [List.dropWhile_cons]
    split <;> simp <;> omega

theorem mem_dropWhile_mem (p : Nat → Bool) (l : Bytes) (b : Nat)
    (h : b ∈ l.dropWhile p) : b ∈ l := by
  induction l with
  | nil => simp at h
  | cons a l ih =>
    rw [List.dropWhile_cons] at h
    split at h
    · simp [ih h]
    · exact h

theorem dropWhile_head_not (p : Nat → Bool) :
    ∀ (l : Bytes) (a : Nat) (t : Bytes), l.dropWhile p = a :: t → p a = false
  | [], a, t, h => List.noConfusion h
  | b :: l, a, t, h => by
    rw [List.dropWhile_cons] at h
    split at h
    · exact dropWhile_head_not p l a t h
    · rename_i hpb
      obtain ⟨h1, _⟩ := List.cons.inj h
      subst h1
      simpa using hpb

theorem trim_length_le (l : Bytes) :
    (trimTrailingZeros l).length ≤ l.length := by
  unfold trimTrailingZeros
  calc (l.reverse.dropWhile (fun b => b == 0)).reverse.length
      = (l.reverse.dropWhile (fun b => b == 0)).length := by simp
    _ ≤ l.reverse.length := length_dropWhile_le _ _
    _ = l.length := by simp

theorem mem_trim_mem (l : Bytes) (b : Nat) (h : b ∈ trimTrailingZeros l) :
    b ∈ l := by
  unfold trimTrailingZeros at h
  rw [List.mem_reverse] at h
  have := mem_dropWhile_mem _ _ _ h
  simpa using this

theorem trim_getLastD (l : Bytes) : (trimTrailingZeros l).getLastD 1 ≠ 0 := by
  unfold trimTrailingZeros
  cases hd : l.reverse.dropWhile (fun b => b == 0) with
  | nil => simp
  | cons a t =>
    have ha : ((fun b => b == 0) a) = false := dropWhile_head_not _ _ a t hd
    simp only [List.reverse_cons]
    have hgl : (t.reverse ++ [a]).getLastD 1 = a := by simp
    rw [hgl]
    simpa using ha

theorem np_hex_string_ok (bs part rest : Bytes)
    (h : np_hex_string bs 32 = .ok (part, rest)) (hb : Byteish bs) :
    EncPartOk part ∧ Byteish rest := by
  unfold np_hex_string at h
  by_cases hlt : bs.length < 32
  · rw [if_pos hlt] at h
    exact Except.noConfusion h
  · rw [if_neg hlt] at h
    cases hd : hexDecodeRaw ((bs.take 32).takeWhile (fun b => b != 0)) with
    | none => rw [hd] at h; exact Except.noConfusion h
    | some out =>
      rw [hd] at h
      simp only [Except.ok.injEq, Prod.mk.injEq] at h
      obtain ⟨hB, hL⟩ := hexDecodeRaw_bytes _ out hd
      have hpre : ((bs.take 32).takeWhile (fun b => b != 0)).length ≤ 32 := by
        calc ((bs.take 32).takeWhile (fun b => b != 0)).length
            ≤ (bs.take 32).length := length_takeWhile_le _ _
          _ ≤ 32 := by simp
      obtain ⟨hp, hr⟩ := h
      subst hp
      subst hr
      refine ⟨⟨?_, ?_, trim_getLastD out⟩, ?_⟩
      · have := trim_length_le out
        omega
      · intro b hbm
        exact hB b (mem_trim_mem out b hbm)
      · intro x hx
        exact hb x (List.drop_subset 32 bs hx)

theorem synBody_decode_WF (bs : Bytes) (s : SynBody) (rest : Bytes)
    (h : SynBody.decode bs = .ok (s, rest)) (hb : Byteish bs) :
    s.WF ∧ Byteish rest := by
  unfold SynBody.decode at h
  cases h1 : be_u16 bs with
  | error e => rw [h1] at h; exact Except.noConfusion h
  | ok pr =>
    obtain ⟨initSeq, bs1⟩ := pr
    rw [h1] at h
    simp only at h
    cases h2 : be_u16 bs1 with
    | error e => rw [h2] at h; exact Except.noConfusion h
    | ok pr2 =>
      obtain ⟨flagsRaw, bs2⟩ := pr2
      rw [h2] at h
      simp only at h
      obtain ⟨hseq, hb1⟩ := be_u16_ok bs initSeq bs1 h1 hb
      obtain ⟨_, hb2⟩ := be_u16_ok bs1 flagsRaw bs2 h2 hb1
      have hidem : flagsTruncate flagsRaw &&& 127 = flagsTruncate flagsRaw := by
        simpa [definedFlagsMask] using flagsTruncate_idem flagsRaw
      by_cases hf : containsFlag (flagsTruncate flagsRaw) 1 = true
      · rw [if_pos hf] at h
        cases h3 : nt_string bs2 with
        | error e => rw [h3] at h; exact Except.noConfusion h
        | ok pr3 =>
          obtain ⟨name, bs3⟩ := pr3
          rw [h3] at h
          simp only [Except.ok.injEq, Prod.mk.injEq] at h
          obtain ⟨hstr, hb3⟩ := nt_string_ok_wf bs2 name bs3 h3 hb2
          obtain ⟨hs, hr⟩ := h
          subst hs
          subst hr
          exact ⟨⟨hseq, hidem, hstr,
            fun hcf => absurd hf (by rw [hcf]; simp)⟩, hb3⟩
      · rw [if_neg hf] at h
        simp only [Except.ok.injEq, Prod.mk.injEq] at h
        obtain ⟨hs, hr⟩ := h
        subst hs
        subst hr
        exact ⟨⟨hseq, hidem,
          ⟨fun b hbm => absurd hbm (List.not_mem_nil b), by simp, rfl⟩,
          fun _ => rfl⟩, hb2⟩

theorem msgBody_decode_WF (bs : Bytes) (m : MsgBody) (rest : Bytes)
    (h : MsgBody.decode bs = .ok (m, rest)) (hb : Byteish bs) :
    m.WF ∧ Byteish rest := by
  unfold MsgBody.decode at h
  cases h1 : be_u16 bs with
  | error e => rw [h1] at h; exact Except.noConfusion h
  | ok pr =>
    obtain ⟨seq, bs1⟩ := pr
    rw [h1] at h
    simp only at h
    cases h2 : be_u16 bs1 with
    | error e => rw [h2] at h; exact Except.noConfusion h
    | ok pr2 =>
      obtain ⟨ack, bs2⟩ := pr2
      rw [h2] at h
      simp only [Except.ok.injEq, Prod.mk.injEq] at h
      obtain ⟨hseq, hb1⟩ := be_u16_ok bs seq bs1 h1 hb
      obtain ⟨hack, hb2⟩ := be_u16_ok bs1 ack bs2 h2 hb1
      obtain ⟨hm, hr⟩ := h
      subst hm
      subst hr
      exact ⟨⟨hseq, hack, hb2⟩,
        fun b hbm => absurd hbm (List.not_mem_nil b)⟩

theorem finBody_decode_WF (bs : Bytes) (f : FinBody) (rest : Bytes)
    (h : FinBody.decode bs = .ok (f, rest)) (hb : Byteish bs) :
    f.WF ∧ Byteish rest := by
  unfold FinBody.decode at h
  cases h1 : nt_string bs with
  | error e => rw [h1] at h; exact Except.noConfusion h
  | ok pr =>
    obtain ⟨reason, bs1⟩ := pr
    rw [h1] at h
    simp only [Except.ok.injEq, Prod.mk.injEq] at h
    obtain ⟨hstr, hb1⟩ := nt_string_ok_wf bs reason bs1 h1 hb
    obtain ⟨hf, hr⟩ := h
    subst hf
    subst hr
    exact ⟨hstr, hb1⟩

theorem encBodyVariant_decode_kind_WF (kind : EncBodyKind) (bs : Bytes)
    (v : EncBodyVariant) (rest : Bytes)
    (h : EncBodyVariant.decode_kind kind bs = .ok (v, rest))
    (hb : Byteish bs) : v.WF ∧ Byteish rest := by
  cases kind with
  | INIT =>
    unfold EncBodyVariant.decode_kind decode_part at h
    cases h1 : np_hex_string bs 32 with
    | error e => rw [h1] at h; exact Except.noConfusion h
    | ok pr =>
      obtain ⟨x, bs1⟩ := pr
      rw [h1] at h
      simp only at h
      cases h2 : np_hex_string bs1 32 with
      | error e => rw [h2] at h; exact Except.noConfusion h
      | ok pr2 =>
        obtain ⟨y, bs2⟩ := pr2
        rw [h2] at h
        simp only [Except.ok.injEq, Prod.mk.injEq] at h
        obtain ⟨hxok, hb1⟩ := np_hex_string_ok bs x bs1 h1 hb
        obtain ⟨hyok, hb2⟩ := np_hex_string_ok bs1 y bs2 h2 hb1
        obtain ⟨hv, hr⟩ := h
        subst hv
        subst hr
        exact ⟨⟨hxok, hyok⟩, hb2⟩
  | AUTH =>
    unfold EncBodyVariant.decode_kind decode_part at h
    cases h1 : np_hex_string bs 32 with
    | error e => rw [h1] at h; exact Except.noConfusion h
    | ok pr =>
      obtain ⟨a, bs1⟩ := pr
      rw [h1] at h
      simp only [Except.ok.injEq, Prod.mk.injEq] at h
      obtain ⟨haok, hb1⟩ := np_hex_string_ok bs a bs1 h1 hb
      obtain ⟨hv, hr⟩ := h
      subst hv
      subst hr
      exact ⟨haok, hb1⟩

theorem encBody_decode_WF (bs : Bytes) (e : EncBody) (rest : Bytes)
    (h : EncBody.decode bs = .ok (e, rest)) (hb : Byteish bs) :
    e.WF ∧ Byteish rest := by
  unfold EncBody.decode at h
  cases h1 : be_u8 bs with
  | error e1 => rw [h1] at h; exact Except.noConfusion h
  | ok pr =>
    obtain ⟨kindByte, bs1⟩ := pr
    rw [h1] at h
    simp only at h
    cases hk : EncBodyKind.from_u8 kindByte with
    | none => rw [hk] at h; exact Except.noConfusion h
    | some kind =>
      rw [hk] at h
      simp only at h
      cases h2 : be_u16 bs1 with
      | error e2 => rw [h2] at h; exact Except.noConfusion h
      | ok pr2 =>
        obtain ⟨cf, bs2⟩ := pr2
        rw [h2] at h
        simp only at h
        cases h3 : EncBodyVariant.decode_kind kind bs2 with
        | error e3 => rw [h3] at h; exact Except.noConfusion h
        | ok pr3 =>
          obtain ⟨body, bs3⟩ := pr3
          rw [h3] at h
          simp only [Except.ok.injEq, Prod.mk.injEq] at h
          obtain ⟨_, hb1⟩ := be_u8_ok bs kindByte bs1 h1 hb
          obtain ⟨hcf, hb2⟩ := be_u16_ok bs1 cf bs2 h2 hb1
          obtain ⟨hbody, hb3⟩ :=
            encBodyVariant_decode_kind_WF kind bs2 body bs3 h3 hb2
          obtain ⟨he, hr⟩ := h
          subst he
          subst hr
          exact ⟨⟨hcf, hbody⟩, hb3⟩

theorem pingBody_decode_WF (bs : Bytes) (p : PingBody) (rest : Bytes)
    (h : PingBody.decode bs = .ok (p, rest)) (hb : Byteish bs) :
    p.WF ∧ Byteish rest := by
  unfold PingBody.decode at h
  cases h1 : be_u16 bs with
  | error e => rw [h1] at h; exact Except.noConfusion h
  | ok pr =>
    obtain ⟨pid, bs1⟩ := pr
    rw [h1] at h
    simp only at h
    cases h2 : nt_string bs1 with
    | error e => rw [h2] at h; exact Except.noConfusion h
    | ok pr2 =>
      obtain ⟨data, bs2⟩ := pr2
      rw [h2] at h
      simp only [Except.ok.injEq, Prod.mk.injEq] at h
      obtain ⟨hpid, hb1⟩ := be_u16_ok bs pid bs1 h1 hb
      obtain ⟨hstr, hb2⟩ := nt_string_ok_wf bs1 data bs2 h2 hb1
      obtain ⟨hp, hr⟩ := h
      subst hp
      subst hr
      exact ⟨⟨hpid, hstr⟩, hb2⟩

theorem sessionBody_decode_kind_WF (kind : PacketKind) (bs : Bytes)
    (b : SupportedSessionBody) (rest : Bytes)
    (h : SupportedSessionBody.decode_kind kind bs = .ok (b, rest))
    (hb : Byteish bs) : b.WF ∧ Byteish rest := by
  cases kind with
  | SYN =>
    unfold SupportedSessionBody.decode_kind at h
    cases h1 : SynBody.decode bs with
    | error e => rw [h1] at h; exact Except.noConfusion h
    | ok pr =>
      obtain ⟨s, bs1⟩ := pr
      rw [h1] at h
      simp only [Except.ok.injEq, Prod.mk.injEq] at h
      obtain ⟨hwf, hb1⟩ := synBody_decode_WF bs s bs1 h1 hb
      obtain ⟨hbb, hr⟩ := h
      subst hbb
      subst hr
      exact ⟨hwf, hb1⟩
  | MSG =>
    unfold SupportedSessionBody.decode_kind at h
    cases h1 : MsgBody.decode bs with
    | error e => rw [h1] at h; exact Except.noConfusion h
    | ok pr =>
      obtain ⟨m, bs1⟩ := pr
      rw [h1] at h
      simp only [Except.ok.injEq, Prod.mk.injEq] at h
      obtain ⟨hwf, hb1⟩ := msgBody_decode_WF bs m bs1 h1 hb
      obtain ⟨hbb, hr⟩ := h
      subst hbb
      subst hr
      exact ⟨hwf, hb1⟩
  | FIN =>
    unfold SupportedSessionBody.decode_kind at h
    cases h1 : FinBody.decode bs with
    | error e => rw [h1] at h; exact Except.noConfusion h
    | ok pr =>
      obtain ⟨f, bs1⟩ := pr
      rw [h1] at h
      simp only [Except.ok.injEq, Prod.mk.injEq] at h
      obtain ⟨hwf, hb1⟩ := finBody_decode_WF bs f bs1 h1 hb
      obtain ⟨hbb, hr⟩ := h
      subst hbb
      subst hr
      exact ⟨hwf, hb1⟩
  | ENC =>
    unfold SupportedSessionBody.decode_kind at h
    cases h1 : EncBody.decode bs with
    | error e => rw [h1] at h; exact Except.noConfusion h
    | ok pr =>
      obtain ⟨e, bs1⟩ := pr
      rw [h1] at h
      simp only [Except.ok.injEq, Prod.mk.injEq] at h
      obtain ⟨hwf, hb1⟩ := encBody_decode_WF bs e bs1 h1 hb
      obtain ⟨hbb, hr⟩ := h
      subst hbb
      subst hr
      exact ⟨hwf, hb1⟩
  | PING => exact Except.noConfusion h
  | Other w => exact Except.noConfusion h

theorem fullBodyDecodeKind_WF (kind : PacketKind) (bs : Bytes)
    (b : SupportedBody SupportedSessionBody) (rest : Bytes)
    (h : fullBodyDecodeKind kind bs = .ok (b, rest)) (hb : Byteish bs) :
    fullBodyWF b := by
  cases hk : kind.isSessionFramed with
  | true =>
    have hform : fullBodyDecodeKind kind bs =
        match be_u16 bs with
        | .error e => .error e
        | .ok (sid, bs) =>
          match SupportedSessionBody.decode_kind kind bs with
          | .error e => .error e
          | .ok (body, bs) => .ok (.session ⟨sid, body⟩, bs) := by
      cases kind <;>
        simp [fullBodyDecodeKind, PacketKind.isSessionFramed] <;>
        cases hk
    rw [hform] at h
    cases h1 : be_u16 bs with
    | error e => rw [h1] at h; exact Except.noConfusion h
    | ok pr =>
      obtain ⟨sid, bs1⟩ := pr
      rw [h1] at h
      simp only at h
      cases h2 : SupportedSessionBody.decode_kind kind bs1 with
      | error e => rw [h2] at h; exact Except.noConfusion h
      | ok pr2 =>
        obtain ⟨body, bs2⟩ := pr2
        rw [h2] at h
        simp only [Except.ok.injEq, Prod.mk.injEq] at h
        obtain ⟨hsid, hb1⟩ := be_u16_ok bs sid bs1 h1 hb
        obtain ⟨hwf, _⟩ :=
          sessionBody_decode_kind_WF kind bs1 body bs2 h2 hb1
        obtain ⟨hbb, _⟩ := h
        subst hbb
        exact ⟨hsid, hwf⟩
  | false =>
    cases kind with
    | PING =>
      unfold fullBodyDecodeKind at h
      cases h1 : PingBody.decode bs with
      | error e => rw [h1] at h; exact Except.noConfusion h
      | ok pr =>
        obtain ⟨p, bs1⟩ := pr
        rw [h1] at h
        simp only [Except.ok.injEq, Prod.mk.injEq] at h
        obtain ⟨hwf, _⟩ := pingBody_decode_WF bs p bs1 h1 hb
        obtain ⟨hbb, _⟩ := h
        subst hbb
        exact hwf
    | SYN => exact Bool.noConfusion hk
    | MSG => exact Bool.noConfusion hk
    | FIN => exact Bool.noConfusion hk
    | ENC => exact Bool.noConfusion hk
    | Other w =>
      simp [fullBodyDecodeKind, PacketKind.isSessionFramed] at h

theorem packetDecode_WF (bs : Bytes) (p : FullPacket) (rest : Bytes)
    (h : packetDecode bs = .ok (p, rest)) (hb : Byteish bs) : packetWF p := by
  unfold packetDecode at h
  cases h1 : be_u16 bs with
  | error e => rw [h1] at h; exact Except.noConfusion h
  | ok pr =>
    obtain ⟨pid, bs1⟩ := pr
    rw [h1] at h
    simp only at h
    cases h2 : be_u8 bs1 with
    | error e => rw [h2] at h; exact Except.noConfusion h
    | ok pr2 =>
      obtain ⟨kindByte, bs2⟩ := pr2
      rw [h2] at h
      simp only at h
      cases h3 : fullBodyDecodeKind (PacketKind.ofByte kindByte) bs2 with
      | error e => rw [h3] at h; exact Except.noConfusion h
      | ok pr3 =>
        obtain ⟨body, bs3⟩ := pr3
        rw [h3] at h
        simp only [Except.ok.injEq, Prod.mk.injEq] at h
        obtain ⟨hpid, hb1⟩ := be_u16_ok bs pid bs1 h1 hb
        obtain ⟨_, hb2⟩ := be_u8_ok bs1 kindByte bs2 h2 hb1
        have hwf := fullBodyDecodeKind_WF _ bs2 body bs3 h3 hb2
        obtain ⟨hp, _⟩ := h
        subst hp
        exact ⟨hpid, hwf⟩

/-! ### Claim C3: re-encoding accepted inputs -/

/-- Counterexample to C3: the byte string with an unknown SYN flag bit
(0x8000) is accepted by the strict decoder with the buffer fully consumed,
contains no ENC hex part at all, and re-encodes to different bytes (the
unknown flag bit is truncated). -/
theorem syn_unknown_flags_reencode_differs :
    packetDecode [0, 1, 0, 0, 1, 0, 1, 128, 0] =
      .ok (⟨1, .session ⟨1, .syn ⟨1, 0, []⟩⟩⟩, []) ∧
    packetEncode ⟨1, .session ⟨1, .syn ⟨1, 0, []⟩⟩⟩ ≠
      [0, 1, 0, 0, 1, 0, 1, 128, 0] ∧
    fullBodyKind (Packet.body ⟨1, .session ⟨1, .syn ⟨1, 0, []⟩⟩⟩) =
      .SYN := by decide

/-- Claim C3 (amended): re-encoding the packet decoded from any accepted
byte input yields bytes that decode to the same packet with nothing left
over (encode-after-decode is canonicalizing); byte-exact reproduction can
fail not only for ENC hex-part zero-padding but also for SYN flag-word
truncation and hex-digit case normalization. -/
theorem accepted_reencode_decodes_same (bs : Bytes) (p : FullPacket)
    (rest : Bytes) (hb : Byteish bs)
    (h : packetDecode bs = .ok (p, rest)) :
    packetDecode (packetEncode p) = .ok (p, []) :=
  packetWF_roundtrip p (packetDecode_WF bs p rest h hb)

/-- Witness for the amended C3 at a concrete accepted FIN packet. -/
theorem accepted_reencode_decodes_same_witness :
    packetDecode (packetEncode ⟨1, .session ⟨1, .fin ⟨[104, 105]⟩⟩⟩) =
      .ok (⟨1, .session ⟨1, .fin ⟨[104, 105]⟩⟩⟩, []) :=
  accepted_reencode_decodes_same [0, 1, 2, 0, 1, 104, 105, 0]
    ⟨1, .session ⟨1, .fin ⟨[104, 105]⟩⟩⟩ []
    (by unfold Byteish; decide) (by decide)

end Dnscat
